import Mathlib

/-!
Verification of the siliconcompiler core (`core.py`) against its
natural-language specification.  The Python code is shallowly embedded:

* Python values that flow through the schema store (`set`/`get`/`add`,
  implemented by `Chip._search`) are modelled by the inductive type `PyVal`;
  Python floats are modelled by rationals, and the builtin conversions
  `str(..)`, `int(..)`, `float(..)` are modelled by an injective encoding
  into decimal strings together with matching parsers.
* The configuration schema (nested dicts with leaf parameter cells) is the
  inductive `Cfg`; `_search`, `getkeys`, `_allkeys` are embedded as
  functions on it, with `Option` results modelling Python exceptions.
* The flowgraph helpers (`list_steps`, `_allpaths`, `_gather_outputs`,
  `_minmax`) and the orchestrator's halt computation in `run()` are embedded
  over explicit graph/metric environments; the unbounded Python recursions
  over the (acyclic) flowgraph take a fuel argument, and the theorems supply
  a rank function witnessing acyclicity.
-/

/-! ### Decimal encoding of numbers

Models Python's `str` on ints and the parsers behind `int(..)`/`float(..)`.
The encoding is injective and the parsers invert it, which is the property
of CPython's `repr`/`float` pair that the round-trip claims rely on. -/

/-- Digit value of a character, `'0'..'9' ↦ 0..9`. -/
def charDigit (c : Char) : Nat := c.toNat - '0'.toNat

/-- Is the character a decimal digit? -/
def isDigitChar (c : Char) : Bool := '0' ≤ c ∧ c ≤ '9'

/-- Decimal rendering of a natural number (models Python `str` on a
non-negative int). -/
def natToStr (n : Nat) : String :=
  if n = 0 then "0" else ⟨((Nat.digits 10 n).map Nat.digitChar).reverse⟩

/-- Parse a non-empty all-digit string back to a natural number (models the
success path of Python `int(..)` on a decimal string). -/
def strToNat? (s : String) : Option Nat :=
  if s.data ≠ [] ∧ s.data.all isDigitChar then
    some (Nat.ofDigits 10 ((s.data.map charDigit).reverse))
  else none

theorem charDigit_digitChar {d : Nat} (h : d < 10) :
    charDigit (Nat.digitChar d) = d := by
  interval_cases d <;> decide

theorem isDigitChar_digitChar {d : Nat} (h : d < 10) :
    isDigitChar (Nat.digitChar d) = true := by
  interval_cases d <;> decide

theorem natToStr_ne_nil (n : Nat) : (natToStr n).data ≠ [] := by
  unfold natToStr
  split
  · decide
  · next h =>
    intro habs
    simp only [String.data] at habs
    simp only [List.reverse_eq_nil_iff, List.map_eq_nil_iff] at habs
    exact (Nat.digits_ne_nil_iff_ne_zero.mpr h) habs

theorem natToStr_all_digits (n : Nat) :
    (natToStr n).data.all isDigitChar = true := by
  unfold natToStr
  split
  · decide
  · simp only [List.all_eq_true, List.mem_reverse, List.mem_map]
    rintro c ⟨d, hd, rfl⟩
    exact isDigitChar_digitChar (Nat.digits_lt_base (by norm_num) hd)

theorem strToNat?_natToStr (n : Nat) : strToNat? (natToStr n) = some n := by
  unfold strToNat?
  rw [if_pos ⟨natToStr_ne_nil n, natToStr_all_digits n⟩]
  unfold natToStr
  split
  · next h => subst h; decide
  · simp only [List.map_reverse, List.reverse_reverse, List.map_map]
    have : ((Nat.digits 10 n).map (charDigit ∘ Nat.digitChar)) = Nat.digits 10 n := by
      have h1 : ((Nat.digits 10 n).map (charDigit ∘ Nat.digitChar))
          = (Nat.digits 10 n).map id := by
        apply List.map_congr_left
        intro d hd
        exact charDigit_digitChar (Nat.digits_lt_base (by norm_num) hd)
      rw [h1, List.map_id]
    rw [this, Nat.ofDigits_digits]

/-- Decimal rendering of an integer (models Python `str` on an int). -/
def intToStr (n : Int) : String :=
  if n < 0 then "-" ++ natToStr (-n).toNat else natToStr n.toNat

/-- Parse an optionally signed decimal string (models the success path of
Python `int(..)` on strings, which accepts only signed runs of digits). -/
def strToInt? (s : String) : Option Int :=
  if s.data.head? = some '-' then
    (strToNat? (String.mk s.data.tail)).map fun n => -(n : Int)
  else (strToNat? s).map fun n => (n : Int)

theorem natToStr_head_digit (n : Nat) (c : Char) (rest : List Char)
    (h : (natToStr n).data = c :: rest) : isDigitChar c = true := by
  have hall := natToStr_all_digits n
  rw [h] at hall
  simp only [List.all_cons, Bool.and_eq_true] at hall
  exact hall.1

theorem strToInt?_intToStr (n : Int) : strToInt? (intToStr n) = some n := by
  unfold strToInt? intToStr
  by_cases hneg : n < 0
  · rw [if_pos hneg]
    have hdata : ("-" ++ natToStr (-n).toNat).data
        = '-' :: (natToStr (-n).toNat).data := rfl
    rw [hdata]
    simp only [List.head?_cons, List.tail_cons, if_pos rfl]
    rw [show String.mk (natToStr (-n).toNat).data = natToStr (-n).toNat from rfl,
        strToNat?_natToStr]
    simp only [if_true, Option.bind_eq_bind, Option.some_bind, pure, Option.map_some']
    simp only [Option.some.injEq]
    omega
  · rw [if_neg hneg]
    have hne : (natToStr n.toNat).data.head? ≠ some '-' := by
      cases hd : (natToStr n.toNat).data with
      | nil => simp
      | cons c rest =>
        have := natToStr_head_digit n.toNat c rest hd
        simp only [List.head?_cons, ne_eq, Option.some.injEq]
        intro habs
        subst habs
        revert this
        decide
    rw [if_neg hne, strToNat?_natToStr]
    simp only [Option.bind_eq_bind, Option.some_bind, pure, Option.map_some']
    simp only [Option.some.injEq]
    omega

/-- Split a character list at the first `'/'`. -/
def splitSlash : List Char → List Char × Option (List Char)
  | [] => ([], none)
  | c :: rest =>
    if c = '/' then ([], some rest)
    else
      let r := splitSlash rest
      (c :: r.1, r.2)

/-- Rendering of a rational; models Python `str` on a float as an injective
decimal encoding (CPython uses the shortest round-tripping decimal form; only
injectivity and invertibility matter for the embedded claims). -/
def ratToStr (q : ℚ) : String := intToStr q.num ++ "/" ++ natToStr q.den

/-- Parse back a rational; models the success path of Python `float(..)`,
which accepts plain integers and the encoded fractional form. -/
def strToRat? (s : String) : Option ℚ :=
  let ds := (splitSlash s.data).1
  match (splitSlash s.data).2 with
  | none => (strToInt? (String.mk ds)).map fun n => (n : ℚ)
  | some es =>
    match strToInt? (String.mk ds), strToNat? (String.mk es) with
    | some n, some d => if d = 0 then none else some ((n : ℚ) / (d : ℚ))
    | _, _ => none

theorem splitSlash_no_slash (xs : List Char) (h : ∀ c ∈ xs, c ≠ '/') :
    splitSlash xs = (xs, none) := by
  induction xs with
  | nil => rfl
  | cons c rest ih =>
    simp only [splitSlash]
    rw [if_neg (h c (by simp))]
    simp only [ih fun d hd => h d (by simp [hd])]

theorem splitSlash_append (xs ys : List Char) (h : ∀ c ∈ xs, c ≠ '/') :
    splitSlash (xs ++ '/' :: ys) = (xs, some ys) := by
  induction xs with
  | nil => simp [splitSlash]
  | cons c rest ih =>
    simp only [List.cons_append, splitSlash, List.append_eq]
    rw [if_neg (h c (by simp))]
    rw [ih fun d hd => h d (by simp [hd])]

theorem natToStr_no_slash (n : Nat) : ∀ c ∈ (natToStr n).data, c ≠ '/' := by
  intro c hc
  have hall := natToStr_all_digits n
  simp only [List.all_eq_true] at hall
  have := hall c hc
  simp only [isDigitChar, decide_eq_true_eq] at this
  intro habs
  subst habs
  revert this
  decide

theorem intToStr_no_slash (n : Int) : ∀ c ∈ (intToStr n).data, c ≠ '/' := by
  intro c hc
  unfold intToStr at hc
  split at hc
  · rw [show ("-" ++ natToStr (-n).toNat).data
        = '-' :: (natToStr (-n).toNat).data from rfl] at hc
    rcases List.mem_cons.mp hc with h | h
    · subst h; decide
    · exact natToStr_no_slash _ c h
  · exact natToStr_no_slash _ c hc

theorem strToRat?_ratToStr (q : ℚ) : strToRat? (ratToStr q) = some q := by
  unfold strToRat? ratToStr
  have hdata : (intToStr q.num ++ "/" ++ natToStr q.den).data
      = (intToStr q.num).data ++ '/' :: (natToStr q.den).data := by
    simp [String.data_append]
  rw [hdata, splitSlash_append _ _ (intToStr_no_slash q.num)]
  simp only []
  rw [show strToInt? (String.mk (intToStr q.num).data) = some q.num from
        strToInt?_intToStr q.num,
      show strToNat? (String.mk (natToStr q.den).data) = some q.den from
        strToNat?_natToStr q.den]
  simp only []
  rw [if_neg q.den_nz]
  rw [Rat.num_div_den]

/-! ### Python values

`PyVal` models the Python values that flow through the schema store: `None`,
strings, ints, floats (as rationals), booleans, tuples and lists. -/

inductive PyVal where
  | pynone
  | str (s : String)
  | int (n : Int)
  | rat (q : ℚ)
  | bool (b : Bool)
  | tup (xs : List PyVal)
  | list (xs : List PyVal)

mutual
/-- Python `repr`: like `str` but strings are quoted.  (A one-element Python
tuple prints with a trailing comma; the embedded claims only involve pairs,
which print identically here and in Python.) -/
def pyRepr : PyVal → String
  | .pynone => "None"
  | .str s => "'" ++ s ++ "'"
  | .int n => intToStr n
  | .rat q => ratToStr q
  | .bool b => if b then "True" else "False"
  | .tup xs => "(" ++ pyReprList xs ++ ")"
  | .list xs => "[" ++ pyReprList xs ++ "]"
/-- Comma-joined `repr` of the elements of a container. -/
def pyReprList : List PyVal → String
  | [] => ""
  | [x] => pyRepr x
  | x :: y :: rest => pyRepr x ++ ", " ++ pyReprList (y :: rest)
end

/-- Python `str(..)`: the string itself for strings, `repr` otherwise. -/
def pyStr : PyVal → String
  | .str s => s
  | v => pyRepr v

/-- Characters matched by the regex class `\s`. -/
def isPyWhitespace (c : Char) : Bool :=
  c = ' ' ∨ c = '\t' ∨ c = '\n' ∨ c = '\x0d' ∨ c = '\x0b' ∨ c = '\x0c'

/-- Models `re.sub(r'[\(\)\s]', '', s)`. -/
def scrubParens (s : String) : String :=
  ⟨s.data.filter fun c => ¬(c = '(' ∨ c = ')' ∨ isPyWhitespace c)⟩

/-- Models `re.sub(r'[\(\)\'\s]', '', s)`. -/
def scrubParensQuote (s : String) : String :=
  ⟨s.data.filter fun c => ¬(c = '(' ∨ c = ')' ∨ c = '\'' ∨ isPyWhitespace c)⟩

/-- Models Python `s.split(',')` (on empty input: one empty field). -/
def splitComma : List Char → List (List Char)
  | [] => [[]]
  | c :: rest =>
    match splitComma rest with
    | [] => [[]]
    | h :: t => if c = ',' then [] :: h :: t else (c :: h) :: t

theorem splitComma_ne_nil (ys : List Char) : splitComma ys ≠ [] := by
  cases ys with
  | nil => simp [splitComma]
  | cons c rest =>
    simp only [splitComma]
    split
    · simp
    · split <;> simp

theorem splitComma_no_comma (xs : List Char) (h : ∀ c ∈ xs, c ≠ ',') :
    splitComma xs = [xs] := by
  induction xs with
  | nil => rfl
  | cons c rest ih =>
    simp only [splitComma, ih fun d hd => h d (by simp [hd])]
    rw [if_neg (h c (by simp))]

theorem splitComma_append (xs ys : List Char) (h : ∀ c ∈ xs, c ≠ ',') :
    splitComma (xs ++ ',' :: ys) = xs :: splitComma ys := by
  induction xs with
  | nil =>
    simp only [List.nil_append, splitComma]
    obtain ⟨a, b, hab⟩ := List.exists_cons_of_ne_nil (splitComma_ne_nil ys)
    rw [hab]
    simp
  | cons c rest ih =>
    simp only [List.cons_append, List.append_eq, splitComma,
      ih fun d hd => h d (by simp [hd])]
    rw [if_neg (h c (by simp))]

/-! ### Python conversions used by the schema store -/

/-- Truncation toward zero; Python `int(..)` applied to a float. -/
def ratTrunc (q : ℚ) : Int := q.num.tdiv (q.den : Int)

/-- Python `int(..)` on a value; `none` models the raised exception. -/
def pyInt? : PyVal → Option Int
  | .int n => some n
  | .rat q => some (ratTrunc q)
  | .bool b => some (if b then 1 else 0)
  | .str s => strToInt? s
  | _ => none

/-- Python `float(..)` on a value; `none` models the raised exception. -/
def pyFloat? : PyVal → Option ℚ
  | .int n => some (n : ℚ)
  | .rat q => some q
  | .bool b => some (if b then 1 else 0)
  | .str s => strToRat? s
  | _ => none

/-- Python `type(..).__name__`. -/
def pyTypeName : PyVal → String
  | .pynone => "NoneType"
  | .str _ => "str"
  | .int _ => "int"
  | .rat _ => "float"
  | .bool _ => "bool"
  | .tup _ => "tuple"
  | .list _ => "list"

/-! ### The schema store

`Param` is a leaf cell of the schema (the fields `_search` reads when
`field='value'`: `type`, `value`, `defvalue`, `lock`); `Cfg` is the nested
dict, children kept in insertion order as Python dicts do. -/

structure Param where
  type : String
  value : PyVal
  defvalue : PyVal
  lock : String

inductive Cfg where
  | leaf (p : Param)
  | node (children : List (String × Cfg))

/-- Dict lookup `cfg[k]`. -/
def childGet : List (String × Cfg) → String → Option Cfg
  | [], _ => none
  | (k, c) :: rest, key => if k = key then some c else childGet rest key

/-- Dict assignment `cfg[k] = c`: update in place, or append a new key at the
end (Python dicts preserve insertion order). -/
def childSet : List (String × Cfg) → String → Cfg → List (String × Cfg)
  | [], key, c => [(key, c)]
  | (k, c0) :: rest, key, c =>
    if k = key then (key, c) :: rest else (k, c0) :: childSet rest key c

/-- `re.match(r'\[', ty)`: the parameter is list-typed. -/
def isListType (ty : String) : Bool := ty.data.head? = some '['

/-- `re.match(r'\(', ty)`: the type begins with a tuple paren. -/
def startsParen (ty : String) : Bool := ty.data.head? = some '(' 

/-- `re.sub(r'[\[\]]', '', ty)`: the element type of a list type. -/
def stripBrackets (ty : String) : String :=
  ⟨ty.data.filter fun c => ¬(c = '[' ∨ c = ']')⟩

/-- `re.search(r'\(', ty)`: the type mentions a tuple. -/
def typeHasParen (ty : String) : Bool := ty.data.contains '('

/-- `re.match(r'\([\w\,]+\)', cfgtype)`, modelled for the two tuple element
types the schema uses (spec section 3.1): `(str,str)` and `(float,float)`. -/
def isTupleTypeName (ty : String) : Bool := ty = "(str,str)" ∨ ty = "(float,float)"

/-- Per-item body of `Chip._typecheck`. -/
def typeCheckItem (cfgtype : String) (item : PyVal) : Bool :=
  if pyTypeName item = cfgtype then true
  else
    match item with
    | .pynone => true
    | _ =>
      if isTupleTypeName cfgtype then true
      else if cfgtype = "bool" then
        match item with
        | .str s => s = "true" ∨ s = "false"
        | _ => false
      else if cfgtype = "file" then true
      else if cfgtype = "dir" then true
      else if cfgtype = "float" then (pyFloat? item).isSome
      else if cfgtype = "int" then (pyInt? item).isSome
      else false

/-- `Chip._typecheck` (the `ok` component). -/
def typeCheck (ty : String) (value : PyVal) : Bool :=
  match value with
  | .list xs => isListType ty && xs.all (typeCheckItem (stripBrackets ty))
  | v => typeCheckItem (stripBrackets ty) v

/-- The sentinel list `empty = [None, 'null', [], 'false']` from `_search`,
membership taken with Python `==`. -/
def isEmptySentinel : PyVal → Bool
  | .pynone => true
  | .str s => s = "null" ∨ s = "false"
  | .list [] => true
  | _ => false

/-- The `value` conversion of Python `True`/`False` to `'true'`/`'false'`
for bool-typed parameters.  (Python's `val == True` would also match the
integer `1`, but an integer cannot pass the bool typecheck.) -/
def boolToStrVal : PyVal → PyVal
  | .bool true => .str "true"
  | .bool false => .str "false"
  | v => v

/-- The value stored by the set-mode leaf branches of `_search` for
`field='value'`; `none` is the "Assigning list to scalar" error branch. -/
def setStoreVal (listType : Bool) (hasParen : Bool) : PyVal → Option PyVal
  | .pynone => if listType then some (.list [.str (pyStr .pynone)]) else some .pynone
  | .list xs =>
    if listType then
      if hasParen then some (.list (xs.map fun x => .str (pyStr x)))
      else some (.list xs)
    else none
  | v =>
    if listType then some (.list [.str (pyStr v)])
    else some (.str (pyStr v))

/-- `set`/`add` distinction inside `_search`. -/
inductive SAMode where
  | set
  | add

/-- The leaf branch of `_search` for modes `set`/`add` and `field='value'`.
Returns the updated children and whether the error flag was raised; `none`
models a Python exception. -/
def searchLeafSA (mode : SAMode) (clobber : Bool) (children : List (String × Cfg))
    (key : String) (val : PyVal) : Option (List (String × Cfg) × Bool) :=
  let inst : Option (List (String × Cfg) × Cfg) :=
    match childGet children key with
    | some c => some (children, c)
    | none =>
      match childGet children "default" with
      | some d => some (childSet children key d, d)
      | none => none
  match inst with
  | none => some (children, true)     -- "Set/Add keypath does not exist."
  | some (children2, child) =>
    match child with
    | .node _ => none                 -- reading ['type'] of a non-leaf dict raises
    | .leaf p =>
      let listType := isListType p.type
      let err1 : Bool := ¬typeCheck p.type val
      let val := if p.type = "bool" then boolToStrVal val else val
      if p.lock = "true" then
        some (children2, err1)        -- write silently ignored; lock bit set
      else
        match mode with
        | .set =>
          if isEmptySentinel p.value ∨ clobber then
            match setStoreVal listType (typeHasParen p.type) val with
            | some stored =>
              some (childSet children2 key (.leaf { p with value := stored }), err1)
            | none => some (children2, true)  -- "Assigning list to scalar"
          else
            some (children2, err1)    -- value already set; write skipped
        | .add =>
          match val with              -- field='value': the list-field branches do not fire
          | .list xs =>
            if listType then
              match p.value with
              | .list vs =>
                some (childSet children2 key (.leaf { p with value := .list (vs ++ xs) }), err1)
              | _ => none             -- .extend on a non-list stored value raises
            else some (children2, true)  -- "Illegal use of add() for scalar parameter"
          | v =>
            if listType then
              match p.value with
              | .list vs =>
                some (childSet children2 key
                  (.leaf { p with value := .list (vs ++ [.str (pyStr v)]) }), err1)
              | _ => none             -- .append on a non-list stored value raises
            else some (children2, true)  -- "Illegal use of add() for scalar parameter"

/-- `_search` in modes `set`/`add` with `field='value'`: descend the keypath,
instantiating missing keys from `default` templates, then apply the leaf
branch.  (`_search` is never entered with an empty keypath: the Python
argument list always carries at least the value plus one key.) -/
def searchSA (mode : SAMode) (clobber : Bool) : Cfg → List String → PyVal → Option (Cfg × Bool)
  | .node children, [key], val =>
    (searchLeafSA mode clobber children key val).map fun r => (.node r.1, r.2)
  | .node children, key :: rest, val =>
    (match childGet children key with
     | some child =>
       (searchSA mode clobber child rest val).map fun r =>
         (Cfg.node (childSet children key r.1), r.2)
     | none =>
       match childGet children "default" with
       | some d =>
         (searchSA mode clobber d rest val).map fun r =>
           (Cfg.node (childSet children key r.1), r.2)
       | none => some (.node children, true))  -- "Get keypath does not exist."
  | _, _, _ => none

/-- Sequence a fallible function over a list; `none` as soon as one element
fails (models a Python for-loop whose body can raise). -/
def omap {α β : Type} (f : α → Option β) : List α → Option (List β)
  | [] => some []
  | x :: rest =>
    match f x, omap f rest with
    | some y, some ys => some (y :: ys)
    | _, _ => none

/-- `tuple(re.sub(r'[\(\)\'\s]','',item).split(','))`: the `(str,str)`
string-to-tuple parse of the get leaf. -/
def parseStrTuple (s : String) : PyVal :=
  .tup ((splitComma (scrubParensQuote s).data).map fun cs => .str (String.mk cs))

/-- `tuple(map(float, re.sub(r'[\(\)\s]','',item).split(',')))`: the
`(float,float)` string-to-tuple parse of the get leaf. -/
def parseFloatTuple (s : String) : Option PyVal :=
  (omap (fun cs => strToRat? (String.mk cs)) (splitComma (scrubParens s).data)).map
    fun qs => .tup (qs.map PyVal.rat)

/-- The get-side coercion of one stored list element (`_search`, get leaf,
list branch). -/
def coerceListItem (sctype : String) (item : PyVal) : Option PyVal :=
  if sctype = "int" then (pyInt? item).map PyVal.int
  else if sctype = "float" then (pyFloat? item).map PyVal.rat
  else if sctype = "(str,str)" then
    match item with
    | .tup xs => some (.tup xs)
    | .str s => some (parseStrTuple s)
    | _ => none                       -- re.sub on a non-string raises
  else if sctype = "(float,float)" then
    match item with
    | .tup xs => some (.tup xs)
    | .str s => parseFloatTuple s
    | _ => none                       -- re.sub on a non-string raises
  else some item

/-- The get leaf of `_search` for `field='value'`: the typed value returned
by `get`.  `none` models a Python exception. -/
def getValue (p : Param) : Option PyVal :=
  let selval := p.value
  if isListType p.type then
    let sctype := stripBrackets p.type
    match selval with
    | .pynone => some .pynone
    | .list items => (omap (coerceListItem sctype) items).map PyVal.list
    | _ => none    -- a non-list stored value cannot arise from set/add
  else
    match selval with
    | .pynone => some .pynone         -- unset scalar of any type
    | _ =>
      if p.type = "int" then (pyFloat? selval).map fun q => .int (ratTrunc q)
      else if p.type = "float" then (pyFloat? selval).map PyVal.rat
      else if p.type = "bool" then
        some (.bool (match selval with | .str s => s = "true" | _ => false))
      else if startsParen p.type then
        match selval with
        | .str s => parseFloatTuple s
        | _ => none
      else some selval

/-- `_search` in mode `get` with `field='value'`: returns the typed value,
the (possibly default-instantiated) configuration and the error flag. -/
def searchGet : Cfg → List String → Option (PyVal × Cfg × Bool)
  | .node children, [key] =>
    (match childGet children key with
     | none => some (.pynone, .node children, true)  -- error; `get` returns None
     | some (.leaf p) => (getValue p).map fun v => (v, .node children, false)
     | some (.node _) => none)        -- reading ['defvalue'] of a non-leaf dict raises
  | .node children, key :: rest =>
    (match childGet children key with
     | some child =>
       (searchGet child rest).map fun r =>
         (r.1, Cfg.node (childSet children key r.2.1), r.2.2)
     | none =>
       match childGet children "default" with
       | some d =>
         (searchGet d rest).map fun r =>
           (r.1, Cfg.node (childSet children key r.2.1), r.2.2)
       | none => some (.pynone, .node children, true))
  | _, _ => none

/-- `_search` in mode `getkeys`: the keys of the dict at the keypath.  On a
parameter leaf Python returns its field names (here, the modelled fields).
On a missing key the error flag is raised and Python then crashes iterating
`None`, modelled as `none`. -/
def searchGetkeys : Cfg → List String → Option (List String × Cfg × Bool)
  | .node children, [key] =>
    (match childGet children key with
     | none => none                   -- error flag, then `list(None)` raises
     | some (.leaf _) => some (["type", "value", "defvalue", "lock"], .node children, false)
     | some (.node cs) => some (cs.map Prod.fst, .node children, false))
  | .node children, key :: rest =>
    (match childGet children key with
     | some child =>
       (searchGetkeys child rest).map fun r =>
         (r.1, Cfg.node (childSet children key r.2.1), r.2.2)
     | none =>
       match childGet children "default" with
       | some d =>
         (searchGetkeys d rest).map fun r =>
           (r.1, Cfg.node (childSet children key r.2.1), r.2.2)
       | none => none)
  | _, _ => none

/-- `Chip.getkeys` with a non-empty keypath: the child keys with the first
`'default'` removed (`keys.remove('default')`). -/
def getkeysAt (c : Cfg) (path : List String) : Option (List String × Cfg × Bool) :=
  (searchGetkeys c path).map fun r =>
    (if "default" ∈ r.1 then r.1.erase "default" else r.1, r.2)

/-- `Chip._allkeys`: depth-first collection of every keypath that ends at a
parameter (a dict containing `'defvalue'`), accumulating the key prefix. -/
def allkeysList : List (String × Cfg) → List String → List (List String)
  | [], _ => []
  | (k, c) :: rest, keys =>
    (match c with
     | .leaf _ => [keys ++ [k]]
     | .node cs => allkeysList cs (keys ++ [k]))
    ++ allkeysList rest keys

/-- `Chip.getkeys()` with no arguments: all keypaths via `_allkeys`. -/
def getkeysAll (c : Cfg) : List (List String) :=
  match c with
  | .node cs => allkeysList cs []
  | .leaf _ => []

/-! ### Round-trip lemmas for the stored string forms -/

/-- Characters appearing in encoded numbers: digits, minus, slash. -/
def numChar (c : Char) : Bool := isDigitChar c ∨ c = '-' ∨ c = '/'

/-- Characters that survive both scrub regexes and comma-splitting. -/
def cleanStrChar (c : Char) : Bool :=
  ¬(c = '(' ∨ c = ')' ∨ c = '\'' ∨ c = ',' ∨ isPyWhitespace c)

/-- A string whose characters are not touched by tuple scrubbing/splitting. -/
def cleanStr (s : String) : Bool := s.data.all cleanStrChar

theorem intToStr_numChar (n : Int) : ∀ c ∈ (intToStr n).data, numChar c = true := by
  intro c hc
  unfold intToStr at hc
  split at hc
  · rw [show ("-" ++ natToStr (-n).toNat).data
        = '-' :: (natToStr (-n).toNat).data from rfl] at hc
    rcases List.mem_cons.mp hc with h | h
    · subst h; decide
    · have hall := natToStr_all_digits (-n).toNat
      simp only [List.all_eq_true] at hall
      simp [numChar, hall c h]
  · have hall := natToStr_all_digits n.toNat
    simp only [List.all_eq_true] at hall
    simp [numChar, hall c hc]

theorem ratToStr_numChar (q : ℚ) : ∀ c ∈ (ratToStr q).data, numChar c = true := by
  intro c hc
  unfold ratToStr at hc
  rw [show (intToStr q.num ++ "/" ++ natToStr q.den).data
      = (intToStr q.num).data ++ '/' :: (natToStr q.den).data by
    simp [String.data_append]] at hc
  rcases List.mem_append.mp hc with h | h
  · exact intToStr_numChar q.num c h
  · rcases List.mem_cons.mp h with h1 | h1
    · subst h1; decide
    · have hall := natToStr_all_digits q.den
      simp only [List.all_eq_true] at hall
      simp [numChar, hall c h1]

theorem strToRat?_intToStr (n : Int) : strToRat? (intToStr n) = some (n : ℚ) := by
  unfold strToRat?
  rw [splitSlash_no_slash _ (intToStr_no_slash n)]
  simp only []
  rw [show strToInt? (String.mk (intToStr n).data) = some n from strToInt?_intToStr n]
  rfl

theorem numChar_not_comma (c : Char) (h : numChar c = true) : c ≠ ',' := by
  intro habs
  subst habs
  revert h
  decide

theorem isPyWhitespace_not_num (c : Char) (h : numChar c = true) :
    isPyWhitespace c = false := by
  by_contra habs
  simp only [Bool.not_eq_false] at habs
  simp only [isPyWhitespace, decide_eq_true_eq] at habs
  rcases habs with h1 | h1 | h1 | h1 | h1 | h1 <;> (subst h1; revert h; decide)

theorem numChar_scrubParens_kept (c : Char) (h : numChar c = true) :
    (decide ¬(c = '(' ∨ c = ')' ∨ isPyWhitespace c = true)) = true := by
  simp only [decide_eq_true_eq]
  intro habs
  rcases habs with h1 | h1 | h1
  · subst h1; revert h; decide
  · subst h1; revert h; decide
  · rw [isPyWhitespace_not_num c h] at h1; cases h1

theorem cleanStrChar_scrubParensQuote_kept (c : Char) (h : cleanStrChar c = true) :
    (decide ¬(c = '(' ∨ c = ')' ∨ c = '\'' ∨ isPyWhitespace c = true)) = true := by
  simp only [cleanStrChar, decide_eq_true_eq] at h ⊢
  intro habs
  exact h (by tauto)

theorem cleanStrChar_not_comma (c : Char) (h : cleanStrChar c = true) : c ≠ ',' := by
  simp only [cleanStrChar, decide_eq_true_eq] at h
  intro habs
  exact h (by tauto)

/-- The float value of a tuple component as stored and re-parsed. -/
def tupNumVal : PyVal → Option ℚ
  | .rat q => some q
  | .int n => some ((n : ℚ))
  | _ => none

theorem pyRepr_tupNum (x : PyVal) (q : ℚ) (h : tupNumVal x = some q) :
    (∀ c ∈ (pyRepr x).data, numChar c = true) ∧ strToRat? (pyRepr x) = some q := by
  cases x <;> simp [tupNumVal] at h
  · next n =>
    subst h
    exact ⟨intToStr_numChar n, strToRat?_intToStr n⟩
  · next q0 =>
    subst h
    exact ⟨ratToStr_numChar q0, strToRat?_ratToStr q0⟩

theorem pyStr_tup_pair (x y : PyVal) :
    (pyStr (PyVal.tup [x, y])).data
      = '(' :: ((pyRepr x).data ++ ',' :: ' ' :: ((pyRepr y).data ++ [')'])) := by
  simp [pyStr, pyRepr, pyReprList, String.data_append]

theorem parseFloatTuple_pair (x y : PyVal) (qx qy : ℚ)
    (hx : tupNumVal x = some qx) (hy : tupNumVal y = some qy) :
    parseFloatTuple (pyStr (.tup [x, y])) = some (.tup [.rat qx, .rat qy]) := by
  obtain ⟨hxc, hxp⟩ := pyRepr_tupNum x qx hx
  obtain ⟨hyc, hyp⟩ := pyRepr_tupNum y qy hy
  unfold parseFloatTuple
  have hdata : (scrubParens (pyStr (PyVal.tup [x, y]))).data
      = (pyRepr x).data ++ ',' :: (pyRepr y).data := by
    rw [show (scrubParens (pyStr (PyVal.tup [x, y]))).data
        = (pyStr (PyVal.tup [x, y])).data.filter
            (fun c => ¬(c = '(' ∨ c = ')' ∨ isPyWhitespace c)) from rfl]
    rw [pyStr_tup_pair]
    simp only [List.filter_cons, List.filter_append, List.filter_nil]
    rw [List.filter_eq_self.mpr fun c hc => numChar_scrubParens_kept c (hxc c hc)]
    rw [List.filter_eq_self.mpr fun c hc => numChar_scrubParens_kept c (hyc c hc)]
    simp [isPyWhitespace]
  rw [hdata]
  rw [splitComma_append _ _ fun c hc => numChar_not_comma c (hxc c hc)]
  rw [splitComma_no_comma _ fun c hc => numChar_not_comma c (hyc c hc)]
  simp only [omap]
  rw [show strToRat? (String.mk (pyRepr x).data) = some qx from hxp,
      show strToRat? (String.mk (pyRepr y).data) = some qy from hyp]
  rfl

theorem pyStr_tup_strs (a b : String) :
    (pyStr (PyVal.tup [.str a, .str b])).data
      = '(' :: '\'' :: (a.data ++ '\'' :: ',' :: ' ' :: '\'' :: (b.data ++ '\'' :: [')'])) := by
  simp [pyStr, pyRepr, pyReprList, String.data_append]

theorem parseStrTuple_pair (a b : String)
    (ha : cleanStr a = true) (hb : cleanStr b = true) :
    parseStrTuple (pyStr (.tup [.str a, .str b])) = .tup [.str a, .str b] := by
  simp only [cleanStr, List.all_eq_true] at ha hb
  unfold parseStrTuple
  have hdata : (scrubParensQuote (pyStr (PyVal.tup [.str a, .str b]))).data
      = a.data ++ ',' :: b.data := by
    rw [show (scrubParensQuote (pyStr (PyVal.tup [.str a, .str b]))).data
        = (pyStr (PyVal.tup [.str a, .str b])).data.filter
            (fun c => ¬(c = '(' ∨ c = ')' ∨ c = '\'' ∨ isPyWhitespace c)) from rfl]
    rw [pyStr_tup_strs]
    simp only [List.filter_cons, List.filter_append, List.filter_nil]
    rw [List.filter_eq_self.mpr fun c hc =>
          cleanStrChar_scrubParensQuote_kept c (ha c hc)]
    rw [List.filter_eq_self.mpr fun c hc =>
          cleanStrChar_scrubParensQuote_kept c (hb c hc)]
    simp [isPyWhitespace]
  rw [hdata]
  rw [splitComma_append _ _ fun c hc => cleanStrChar_not_comma c (ha c hc)]
  rw [splitComma_no_comma _ fun c hc => cleanStrChar_not_comma c (hb c hc)]
  rfl

/-! ### The claim-side coercion: what `get` should return after `set` -/

/-- The two components of a pair of strings, when the list is one. -/
def strPairOf : List PyVal → Option (String × String)
  | [.str a, .str b] => some (a, b)
  | _ => none

/-- Expected element of a list parameter after `add`/`set` storage and `get`
coercion, phrased from the spec's coercion rules. -/
def expectedElem (sctype : String) (item : PyVal) : Option PyVal :=
  if sctype = "int" then (pyInt? item).map PyVal.int
  else if sctype = "float" then (pyFloat? item).map PyVal.rat
  else if sctype = "(str,str)" then
    match item with
    | .tup xs =>
      match strPairOf xs with
      | some (a, b) =>
        if cleanStr a ∧ cleanStr b then some (.tup [.str a, .str b]) else none
      | none => none
    | .str s => some (parseStrTuple s)
    | _ => none
  else if sctype = "(float,float)" then
    match item with
    | .tup [x, y] =>
      match tupNumVal x, tupNumVal y with
      | some qx, some qy => some (.tup [.rat qx, .rat qy])
      | _, _ => none
    | .str s => parseFloatTuple s
    | _ => none
  else some item

/-- `get(k)` after `set(k, v)` "modulo the declared type coercion": ints and
floats come back from their stored string form, booleans come back as
booleans, tuples are parsed from the `(a,b)` form, scalars are
auto-stringified, and scalars are auto-wrapped for list parameters.
`none` marks a combination outside the round trip (a Python exception or a
lossy case). -/
def expectedGet (ty : String) (v : PyVal) : Option PyVal :=
  if isListType ty then
    let sctype := stripBrackets ty
    match v with
    | .list xs => (omap (expectedElem sctype) xs).map PyVal.list
    | v => (expectedElem sctype (.str (pyStr v))).map fun e => .list [e]
  else
    match v with
    | .pynone => some .pynone
    | .int n =>
      if ty = "int" then some (.int n)
      else if ty = "float" then some (.rat (n : ℚ))
      else if ty = "bool" then none
      else if startsParen ty then none
      else some (.str (intToStr n))
    | .rat q =>
      if ty = "int" then some (.int (ratTrunc q))
      else if ty = "float" then some (.rat q)
      else if ty = "bool" then none
      else if startsParen ty then none
      else some (.str (ratToStr q))
    | .bool b =>
      if ty = "int" then none
      else if ty = "float" then none
      else if ty = "bool" then some (.bool b)
      else if startsParen ty then none
      else some (.str (pyStr (.bool b)))
    | .str s =>
      if ty = "int" then (strToRat? s).map fun q => .int (ratTrunc q)
      else if ty = "float" then (strToRat? s).map PyVal.rat
      else if ty = "bool" then some (.bool (s = "true"))
      else if startsParen ty then parseFloatTuple s
      else some (.str s)
    | .tup xs =>
      if ty = "int" then none
      else if ty = "float" then none
      else if ty = "bool" then none
      else if startsParen ty then
        match xs with
        | [x, y] =>
          match tupNumVal x, tupNumVal y with
          | some qx, some qy => some (.tup [.rat qx, .rat qy])
          | _, _ => none
        | _ => none
      else some (.str (pyStr (.tup xs)))
    | .list _ => none

/-- The schema types covered by the round-trip theorem: the types of spec
section 3.1 for which the get coercion inverts the set storage.  Excluded
are a scalar `(str,str)` (the get leaf parses scalar tuples with `float`)
and `[bool]` (the get list branch returns the stored strings unchanged). -/
def supportedType (ty : String) : Bool :=
  ty ∈ ["str", "file", "dir", "int", "float", "bool", "(float,float)",
        "[str]", "[file]", "[dir]", "[int]", "[float]", "[(str,str)]", "[(float,float)]"]

/-- Pure navigation to the parameter a keypath denotes, descending through
`default` templates exactly where `_search` would instantiate them. -/
def resolveParam : Cfg → List String → Option Param
  | .node children, [key] =>
    (match childGet children key with
     | some (.leaf p) => some p
     | some (.node _) => none
     | none =>
       match childGet children "default" with
       | some (.leaf p) => some p
       | _ => none)
  | .node children, key :: rest =>
    (match childGet children key with
     | some child => resolveParam child rest
     | none =>
       match childGet children "default" with
       | some d => resolveParam d rest
       | none => none)
  | _, _ => none

theorem childGet_childSet_self (cs : List (String × Cfg)) (k : String) (c : Cfg) :
    childGet (childSet cs k c) k = some c := by
  induction cs with
  | nil => simp [childSet, childGet]
  | cons hd rest ih =>
    obtain ⟨k0, c0⟩ := hd
    by_cases hk : k0 = k
    · subst hk
      simp [childSet, childGet]
    · simp [childSet, childGet, hk, ih]

theorem childSet_childSet (cs : List (String × Cfg)) (k : String) (c c' : Cfg) :
    childSet (childSet cs k c) k c' = childSet cs k c' := by
  induction cs with
  | nil => simp [childSet]
  | cons hd rest ih =>
    obtain ⟨k0, c0⟩ := hd
    by_cases hk : k0 = k
    · subst hk
      simp [childSet]
    · simp [childSet, hk, ih]

theorem ratTrunc_intCast (n : Int) : ratTrunc ((n : ℚ)) = n := by
  unfold ratTrunc
  rw [Rat.num_intCast, Rat.den_intCast]
  simp [Int.tdiv_one]

theorem omap_coerce_of_expected (sct : String)
    (htrans : ∀ x e, expectedElem sct x = some e →
      coerceListItem sct (.str (pyStr x)) = some e)
    (xs es : List PyVal) (h : omap (expectedElem sct) xs = some es) :
    omap (coerceListItem sct) (xs.map fun x => PyVal.str (pyStr x)) = some es := by
  induction xs generalizing es with
  | nil => simp_all [omap]
  | cons x rest ih =>
    simp only [omap] at h
    cases hx : expectedElem sct x with
    | none => rw [hx] at h; cases h
    | some e =>
      rw [hx] at h
      cases hrest : omap (expectedElem sct) rest with
      | none => rw [hrest] at h; cases h
      | some es0 =>
        rw [hrest] at h
        simp only [Option.some.injEq] at h
        subst h
        simp only [List.map_cons, omap, htrans x e hx, ih es0 hrest]

theorem gv_scalar_int (v r stored : PyVal) (dv : PyVal) (lk : String)
    (htc : typeCheck "int" v = true)
    (hexp : expectedGet "int" v = some r)
    (hstore : setStoreVal (isListType "int") (typeHasParen "int")
        (if ("int" : String) = "bool" then boolToStrVal v else v) = some stored) :
    getValue { type := "int", value := stored, defvalue := dv, lock := lk } = some r := by
  rw [show isListType "int" = false from rfl, show typeHasParen "int" = false from rfl,
      if_neg (by decide : ¬("int" : String) = "bool")] at hstore
  cases v with
  | pynone =>
    simp only [setStoreVal, Bool.false_eq_true, if_false, Option.some.injEq] at hstore
    subst hstore
    simp only [expectedGet, isListType] at hexp
    simp_all [getValue, isListType]
  | int n =>
    simp only [setStoreVal, Bool.false_eq_true, if_false, Option.some.injEq] at hstore
    subst hstore
    simp only [expectedGet, isListType] at hexp
    simp_all [getValue, isListType, pyStr, pyRepr, pyFloat?, strToRat?_intToStr,
      ratTrunc_intCast]
  | rat q =>
    simp only [setStoreVal, Bool.false_eq_true, if_false, Option.some.injEq] at hstore
    subst hstore
    simp only [expectedGet, isListType] at hexp
    simp_all [getValue, isListType, pyStr, pyRepr, pyFloat?, strToRat?_ratToStr]
  | str s =>
    simp only [setStoreVal, Bool.false_eq_true, if_false, Option.some.injEq] at hstore
    subst hstore
    simp only [expectedGet, isListType] at hexp
    simp_all [getValue, isListType, pyStr, pyFloat?]
  | bool b =>
    simp only [expectedGet, isListType] at hexp
    simp at hexp
  | tup xs =>
    simp only [typeCheck, typeCheckItem, stripBrackets, pyTypeName] at htc
    simp at htc
    rcases htc with h | h
    · exact absurd h (by decide)
    · simp [pyInt?] at h
  | list xs =>
    simp only [typeCheck, isListType] at htc
    simp at htc

theorem gv_scalar_float (v r stored : PyVal) (dv : PyVal) (lk : String)
    (htc : typeCheck "float" v = true)
    (hexp : expectedGet "float" v = some r)
    (hstore : setStoreVal (isListType "float") (typeHasParen "float")
        (if ("float" : String) = "bool" then boolToStrVal v else v) = some stored) :
    getValue { type := "float", value := stored, defvalue := dv, lock := lk } = some r := by
  rw [show isListType "float" = false from rfl, show typeHasParen "float" = false from rfl,
      if_neg (by decide : ¬("float" : String) = "bool")] at hstore
  cases v with
  | pynone =>
    simp only [setStoreVal, Bool.false_eq_true, if_false, Option.some.injEq] at hstore
    subst hstore
    simp only [expectedGet, isListType] at hexp
    simp_all [getValue, isListType]
  | int n =>
    simp only [setStoreVal, Bool.false_eq_true, if_false, Option.some.injEq] at hstore
    subst hstore
    simp only [expectedGet, isListType] at hexp
    simp_all [getValue, isListType, pyStr, pyRepr, pyFloat?, strToRat?_intToStr]
  | rat q =>
    simp only [setStoreVal, Bool.false_eq_true, if_false, Option.some.injEq] at hstore
    subst hstore
    simp only [expectedGet, isListType] at hexp
    simp_all [getValue, isListType, pyStr, pyRepr, pyFloat?, strToRat?_ratToStr]
  | str s =>
    simp only [setStoreVal, Bool.false_eq_true, if_false, Option.some.injEq] at hstore
    subst hstore
    simp only [expectedGet, isListType] at hexp
    simp_all [getValue, isListType, pyStr, pyFloat?]
  | bool b =>
    simp only [expectedGet, isListType] at hexp
    simp at hexp
  | tup xs =>
    simp only [typeCheck, typeCheckItem, stripBrackets, pyTypeName] at htc
    simp at htc
    rcases htc with h | h
    · exact absurd h (by decide)
    · simp [pyFloat?] at h
  | list xs =>
    simp only [typeCheck, isListType] at htc
    simp at htc

theorem gv_scalar_bool (v r stored : PyVal) (dv : PyVal) (lk : String)
    (htc : typeCheck "bool" v = true)
    (hexp : expectedGet "bool" v = some r)
    (hstore : setStoreVal (isListType "bool") (typeHasParen "bool")
        (if ("bool" : String) = "bool" then boolToStrVal v else v) = some stored) :
    getValue { type := "bool", value := stored, defvalue := dv, lock := lk } = some r := by
  rw [show isListType "bool" = false from rfl, show typeHasParen "bool" = false from rfl,
      if_pos rfl] at hstore
  cases v with
  | pynone =>
    simp only [boolToStrVal, setStoreVal, Bool.false_eq_true, if_false,
      Option.some.injEq] at hstore
    subst hstore
    simp only [expectedGet, isListType] at hexp
    simp_all [getValue, isListType]
  | bool b =>
    cases b with
    | true =>
      simp only [boolToStrVal, setStoreVal, Bool.false_eq_true, if_false,
        Option.some.injEq] at hstore
      subst hstore
      simp only [expectedGet, isListType] at hexp
      simp_all [getValue, isListType, pyStr]
    | false =>
      simp only [boolToStrVal, setStoreVal, Bool.false_eq_true, if_false,
        Option.some.injEq] at hstore
      subst hstore
      simp only [expectedGet, isListType] at hexp
      simp_all [getValue, isListType, pyStr]
  | str s =>
    simp only [boolToStrVal, setStoreVal, Bool.false_eq_true, if_false,
      Option.some.injEq] at hstore
    subst hstore
    simp only [expectedGet, isListType] at hexp
    simp_all [getValue, isListType, pyStr]
  | int n =>
    simp only [expectedGet, isListType] at hexp
    simp at hexp
  | rat q =>
    simp only [expectedGet, isListType] at hexp
    simp at hexp
  | tup xs =>
    simp only [expectedGet, isListType] at hexp
    simp at hexp
  | list xs =>
    simp only [typeCheck, isListType] at htc
    simp at htc

theorem gv_scalar_str (v r stored : PyVal) (dv : PyVal) (lk : String)
    (htc : typeCheck "str" v = true)
    (hexp : expectedGet "str" v = some r)
    (hstore : setStoreVal (isListType "str") (typeHasParen "str")
        (if ("str" : String) = "bool" then boolToStrVal v else v) = some stored) :
    getValue { type := "str", value := stored, defvalue := dv, lock := lk } = some r := by
  rw [show isListType "str" = false from rfl, show typeHasParen "str" = false from rfl,
      if_neg (by decide : ¬("str" : String) = "bool")] at hstore
  cases v with
  | list xs =>
    simp only [typeCheck, isListType] at htc
    simp at htc
  | pynone =>
    simp only [setStoreVal, Bool.false_eq_true, if_false, Option.some.injEq] at hstore
    subst hstore
    simp only [expectedGet, isListType] at hexp
    simp_all [getValue, isListType]
  | str s =>
    simp only [setStoreVal, Bool.false_eq_true, if_false, Option.some.injEq] at hstore
    subst hstore
    simp only [expectedGet, isListType] at hexp
    simp_all [getValue, isListType, pyStr, startsParen]
  | int n =>
    simp only [setStoreVal, Bool.false_eq_true, if_false, Option.some.injEq] at hstore
    subst hstore
    simp only [expectedGet, isListType] at hexp
    simp_all [getValue, isListType, pyStr, pyRepr, startsParen]
  | rat q =>
    simp only [setStoreVal, Bool.false_eq_true, if_false, Option.some.injEq] at hstore
    subst hstore
    simp only [expectedGet, isListType] at hexp
    simp_all [getValue, isListType, pyStr, pyRepr, startsParen]
  | bool b =>
    simp only [setStoreVal, Bool.false_eq_true, if_false, Option.some.injEq] at hstore
    subst hstore
    simp only [expectedGet, isListType] at hexp
    simp_all [getValue, isListType, pyStr, startsParen]
  | tup xs =>
    simp only [setStoreVal, Bool.false_eq_true, if_false, Option.some.injEq] at hstore
    subst hstore
    simp only [expectedGet, isListType] at hexp
    simp_all [getValue, isListType, pyStr, startsParen]

theorem gv_scalar_floatpair (v r stored : PyVal) (dv : PyVal) (lk : String)
    (htc : typeCheck "(float,float)" v = true)
    (hexp : expectedGet "(float,float)" v = some r)
    (hstore : setStoreVal (isListType "(float,float)") (typeHasParen "(float,float)")
        (if ("(float,float)" : String) = "bool" then boolToStrVal v else v) = some stored) :
    getValue { type := "(float,float)", value := stored, defvalue := dv, lock := lk }
      = some r := by
  rw [show isListType "(float,float)" = false from rfl,
      if_neg (by decide : ¬("(float,float)" : String) = "bool")] at hstore
  cases v with
  | list xs =>
    simp only [typeCheck, isListType] at htc
    simp at htc
  | pynone =>
    simp only [setStoreVal, Bool.false_eq_true, if_false, Option.some.injEq] at hstore
    subst hstore
    simp only [expectedGet, isListType] at hexp
    simp_all [getValue, isListType]
  | str s =>
    simp only [setStoreVal, Bool.false_eq_true, if_false, Option.some.injEq] at hstore
    subst hstore
    simp only [expectedGet, isListType, startsParen] at hexp
    simp_all [getValue, isListType, pyStr, startsParen]
  | int n =>
    simp only [expectedGet, isListType, startsParen] at hexp
    simp at hexp
  | rat q =>
    simp only [expectedGet, isListType, startsParen] at hexp
    simp at hexp
  | bool b =>
    simp only [expectedGet, isListType, startsParen] at hexp
    simp at hexp
  | tup xs =>
    simp only [setStoreVal, Bool.false_eq_true, if_false, Option.some.injEq] at hstore
    subst hstore
    simp only [expectedGet, isListType, startsParen] at hexp
    match xs with
    | [x, y] =>
      cases hx : tupNumVal x with
      | none => simp [hx] at hexp
      | some qx =>
        cases hy : tupNumVal y with
        | none => simp [hx, hy] at hexp
        | some qy =>
          simp only [hx, hy, Option.some.injEq] at hexp
          simp at hexp
          subst hexp
          simp only [getValue, isListType]
          simp [startsParen, parseFloatTuple_pair x y qx qy hx hy]
    | [] => simp at hexp
    | [x] => simp at hexp
    | x :: y :: z :: rest => simp at hexp


theorem strPairOf_eq (xs : List PyVal) (a b : String) (h : strPairOf xs = some (a, b)) :
    xs = [.str a, .str b] := by
  unfold strPairOf at h
  split at h
  · next a0 b0 =>
    simp only [Option.some.injEq, Prod.mk.injEq] at h
    rw [h.1, h.2]
  · cases h

theorem trans_strstr : ∀ x e, expectedElem "(str,str)" x = some e →
    coerceListItem "(str,str)" (.str (pyStr x)) = some e := by
  intro x e h
  cases x with
  | str s =>
    unfold expectedElem at h
    rw [if_neg (by decide : ¬(("(str,str)" : String) = "int")),
        if_neg (by decide : ¬(("(str,str)" : String) = "float")),
        if_pos rfl] at h
    simp only [Option.some.injEq] at h
    subst h
    rfl
  | tup xs =>
    unfold expectedElem at h
    rw [if_neg (by decide : ¬(("(str,str)" : String) = "int")),
        if_neg (by decide : ¬(("(str,str)" : String) = "float")),
        if_pos rfl] at h
    have h2 : (match strPairOf xs with
      | some (a, b) =>
        if cleanStr a = true ∧ cleanStr b = true then
          some (PyVal.tup [PyVal.str a, PyVal.str b])
        else none
      | none => none) = some e := h
    clear h
    cases hp : strPairOf xs with
    | none => rw [hp] at h2; cases h2
    | some ab =>
      obtain ⟨a, b⟩ := ab
      rw [hp] at h2
      have h3 : (if cleanStr a = true ∧ cleanStr b = true then
          some (PyVal.tup [PyVal.str a, PyVal.str b]) else none) = some e := h2
      clear h2
      rw [strPairOf_eq xs a b hp]
      by_cases hc : cleanStr a = true ∧ cleanStr b = true
      · rw [if_pos (by exact ⟨hc.1, hc.2⟩)] at h3
        simp only [Option.some.injEq] at h3
        subst h3
        rw [show coerceListItem "(str,str)"
              (PyVal.str (pyStr (PyVal.tup [PyVal.str a, PyVal.str b])))
            = some (parseStrTuple (pyStr (PyVal.tup [PyVal.str a, PyVal.str b]))) from rfl]
        rw [parseStrTuple_pair a b hc.1 hc.2]
      · rw [if_neg (by simpa using hc)] at h3
        cases h3
  | pynone => simp [expectedElem] at h
  | int n => simp [expectedElem] at h
  | rat q => simp [expectedElem] at h
  | bool b => simp [expectedElem] at h
  | list xs => simp [expectedElem] at h

theorem trans_floatfloat : ∀ x e, expectedElem "(float,float)" x = some e →
    coerceListItem "(float,float)" (.str (pyStr x)) = some e := by
  intro x e h
  cases x with
  | str s =>
    unfold expectedElem at h
    rw [if_neg (by decide : ¬(("(float,float)" : String) = "int")),
        if_neg (by decide : ¬(("(float,float)" : String) = "float")),
        if_neg (by decide : ¬(("(float,float)" : String) = "(str,str)")),
        if_pos rfl] at h
    rw [show coerceListItem "(float,float)" (PyVal.str (pyStr (PyVal.str s)))
        = parseFloatTuple s from rfl]
    exact h
  | tup xs =>
    unfold expectedElem at h
    rw [if_neg (by decide : ¬(("(float,float)" : String) = "int")),
        if_neg (by decide : ¬(("(float,float)" : String) = "float")),
        if_neg (by decide : ¬(("(float,float)" : String) = "(str,str)")),
        if_pos rfl] at h
    match xs with
    | [x1, x2] =>
      have h2 : (match tupNumVal x1, tupNumVal x2 with
        | some qx, some qy => some (PyVal.tup [PyVal.rat qx, PyVal.rat qy])
        | _, _ => none) = some e := h
      clear h
      cases hx : tupNumVal x1 with
      | none => rw [hx] at h2; cases hy : tupNumVal x2 <;> rw [hy] at h2 <;> cases h2
      | some qx =>
        cases hy : tupNumVal x2 with
        | none => rw [hx, hy] at h2; cases h2
        | some qy =>
          rw [hx, hy] at h2
          simp only [Option.some.injEq] at h2
          subst h2
          rw [show coerceListItem "(float,float)"
                (PyVal.str (pyStr (PyVal.tup [x1, x2])))
              = parseFloatTuple (pyStr (PyVal.tup [x1, x2])) from rfl]
          exact parseFloatTuple_pair x1 x2 qx qy hx hy
    | [] => exact absurd h (by simp)
    | [x1] => exact absurd h (by simp)
    | x1 :: x2 :: x3 :: rest => exact absurd h (by simp)
  | pynone => simp [expectedElem] at h
  | int n => simp [expectedElem] at h
  | rat q => simp [expectedElem] at h
  | bool b => simp [expectedElem] at h
  | list xs => simp [expectedElem] at h

theorem omap_single (f : PyVal → Option PyVal) (x : PyVal) :
    omap f [x] = (f x).map fun y => [y] := by
  cases h : f x <;> simp [omap, h]

theorem gv_list_raw (ty sct : String)
    (hl : isListType ty = true) (hp : typeHasParen ty = false)
    (hs : stripBrackets ty = sct) (hb : ty ≠ "bool")
    (hfun : coerceListItem sct = expectedElem sct)
    (v r stored : PyVal) (dv : PyVal) (lk : String)
    (hexp : expectedGet ty v = some r)
    (hstore : setStoreVal (isListType ty) (typeHasParen ty)
        (if ty = "bool" then boolToStrVal v else v) = some stored) :
    getValue { type := ty, value := stored, defvalue := dv, lock := lk } = some r := by
  rw [hl, hp, if_neg hb] at hstore
  simp only [expectedGet, hl, hs, if_true] at hexp
  cases v with
  | list xs =>
    have hexp2 : (omap (expectedElem sct) xs).map PyVal.list = some r := hexp
    simp only [setStoreVal, Bool.false_eq_true, if_false, if_true,
      Option.some.injEq] at hstore
    subst hstore
    simp only [getValue, hl, hs, if_true]
    rw [hfun]
    exact hexp2
  | pynone =>
    have hexp2 : Option.map (fun e => PyVal.list [e])
        (expectedElem sct (PyVal.str (pyStr (PyVal.pynone)))) = some r := hexp
    simp only [setStoreVal, if_true, Option.some.injEq] at hstore
    subst hstore
    simp only [getValue, hl, hs, if_true, omap_single]
    rw [hfun]
    cases he : expectedElem sct (PyVal.str (pyStr (PyVal.pynone))) with
    | none => rw [he] at hexp2; cases hexp2
    | some e =>
      rw [he] at hexp2
      simp only [Option.map_some', Option.some.injEq] at hexp2
      subst hexp2
      simp [he]
  | str s =>
    have hexp2 : Option.map (fun e => PyVal.list [e])
        (expectedElem sct (PyVal.str (pyStr (PyVal.str s)))) = some r := hexp
    simp only [setStoreVal, if_true, Option.some.injEq] at hstore
    subst hstore
    simp only [getValue, hl, hs, if_true, omap_single]
    rw [hfun]
    cases he : expectedElem sct (PyVal.str (pyStr (PyVal.str s))) with
    | none => rw [he] at hexp2; cases hexp2
    | some e =>
      rw [he] at hexp2
      simp only [Option.map_some', Option.some.injEq] at hexp2
      subst hexp2
      simp [he]
  | int n =>
    have hexp2 : Option.map (fun e => PyVal.list [e])
        (expectedElem sct (PyVal.str (pyStr (PyVal.int n)))) = some r := hexp
    simp only [setStoreVal, if_true, Option.some.injEq] at hstore
    subst hstore
    simp only [getValue, hl, hs, if_true, omap_single]
    rw [hfun]
    cases he : expectedElem sct (PyVal.str (pyStr (PyVal.int n))) with
    | none => rw [he] at hexp2; cases hexp2
    | some e =>
      rw [he] at hexp2
      simp only [Option.map_some', Option.some.injEq] at hexp2
      subst hexp2
      simp [he]
  | rat q =>
    have hexp2 : Option.map (fun e => PyVal.list [e])
        (expectedElem sct (PyVal.str (pyStr (PyVal.rat q)))) = some r := hexp
    simp only [setStoreVal, if_true, Option.some.injEq] at hstore
    subst hstore
    simp only [getValue, hl, hs, if_true, omap_single]
    rw [hfun]
    cases he : expectedElem sct (PyVal.str (pyStr (PyVal.rat q))) with
    | none => rw [he] at hexp2; cases hexp2
    | some e =>
      rw [he] at hexp2
      simp only [Option.map_some', Option.some.injEq] at hexp2
      subst hexp2
      simp [he]
  | bool b =>
    have hexp2 : Option.map (fun e => PyVal.list [e])
        (expectedElem sct (PyVal.str (pyStr (PyVal.bool b)))) = some r := hexp
    simp only [setStoreVal, if_true, Option.some.injEq] at hstore
    subst hstore
    simp only [getValue, hl, hs, if_true, omap_single]
    rw [hfun]
    cases he : expectedElem sct (PyVal.str (pyStr (PyVal.bool b))) with
    | none => rw [he] at hexp2; cases hexp2
    | some e =>
      rw [he] at hexp2
      simp only [Option.map_some', Option.some.injEq] at hexp2
      subst hexp2
      simp [he]
  | tup xs =>
    have hexp2 : Option.map (fun e => PyVal.list [e])
        (expectedElem sct (PyVal.str (pyStr (PyVal.tup xs)))) = some r := hexp
    simp only [setStoreVal, if_true, Option.some.injEq] at hstore
    subst hstore
    simp only [getValue, hl, hs, if_true, omap_single]
    rw [hfun]
    cases he : expectedElem sct (PyVal.str (pyStr (PyVal.tup xs))) with
    | none => rw [he] at hexp2; cases hexp2
    | some e =>
      rw [he] at hexp2
      simp only [Option.map_some', Option.some.injEq] at hexp2
      subst hexp2
      simp [he]

theorem gv_list_tuple (ty sct : String)
    (hl : isListType ty = true) (hp : typeHasParen ty = true)
    (hs : stripBrackets ty = sct) (hb : ty ≠ "bool")
    (htrans : ∀ x e, expectedElem sct x = some e →
      coerceListItem sct (.str (pyStr x)) = some e)
    (hstrfun : ∀ s, coerceListItem sct (.str s) = expectedElem sct (.str s))
    (v r stored : PyVal) (dv : PyVal) (lk : String)
    (hexp : expectedGet ty v = some r)
    (hstore : setStoreVal (isListType ty) (typeHasParen ty)
        (if ty = "bool" then boolToStrVal v else v) = some stored) :
    getValue { type := ty, value := stored, defvalue := dv, lock := lk } = some r := by
  rw [hl, hp, if_neg hb] at hstore
  simp only [expectedGet, hl, hs, if_true] at hexp
  cases v with
  | list xs =>
    have hexp2 : (omap (expectedElem sct) xs).map PyVal.list = some r := hexp
    simp only [setStoreVal, if_true, Option.some.injEq] at hstore
    subst hstore
    simp only [getValue, hl, hs, if_true]
    cases hes : omap (expectedElem sct) xs with
    | none => rw [hes] at hexp2; cases hexp2
    | some es =>
      rw [hes] at hexp2
      simp only [Option.map_some', Option.some.injEq] at hexp2
      subst hexp2
      rw [omap_coerce_of_expected sct htrans xs es hes]
      rfl
  | pynone =>
    have hexp2 : Option.map (fun e => PyVal.list [e])
        (expectedElem sct (PyVal.str (pyStr (PyVal.pynone)))) = some r := hexp
    simp only [setStoreVal, if_true, Option.some.injEq] at hstore
    subst hstore
    simp only [getValue, hl, hs, if_true, omap_single]
    rw [hstrfun]
    cases he : expectedElem sct (PyVal.str (pyStr (PyVal.pynone))) with
    | none => rw [he] at hexp2; cases hexp2
    | some e =>
      rw [he] at hexp2
      simp only [Option.map_some', Option.some.injEq] at hexp2
      subst hexp2
      simp [he]
  | str s =>
    have hexp2 : Option.map (fun e => PyVal.list [e])
        (expectedElem sct (PyVal.str (pyStr (PyVal.str s)))) = some r := hexp
    simp only [setStoreVal, if_true, Option.some.injEq] at hstore
    subst hstore
    simp only [getValue, hl, hs, if_true, omap_single]
    rw [hstrfun]
    cases he : expectedElem sct (PyVal.str (pyStr (PyVal.str s))) with
    | none => rw [he] at hexp2; cases hexp2
    | some e =>
      rw [he] at hexp2
      simp only [Option.map_some', Option.some.injEq] at hexp2
      subst hexp2
      simp [he]
  | int n =>
    have hexp2 : Option.map (fun e => PyVal.list [e])
        (expectedElem sct (PyVal.str (pyStr (PyVal.int n)))) = some r := hexp
    simp only [setStoreVal, if_true, Option.some.injEq] at hstore
    subst hstore
    simp only [getValue, hl, hs, if_true, omap_single]
    rw [hstrfun]
    cases he : expectedElem sct (PyVal.str (pyStr (PyVal.int n))) with
    | none => rw [he] at hexp2; cases hexp2
    | some e =>
      rw [he] at hexp2
      simp only [Option.map_some', Option.some.injEq] at hexp2
      subst hexp2
      simp [he]
  | rat q =>
    have hexp2 : Option.map (fun e => PyVal.list [e])
        (expectedElem sct (PyVal.str (pyStr (PyVal.rat q)))) = some r := hexp
    simp only [setStoreVal, if_true, Option.some.injEq] at hstore
    subst hstore
    simp only [getValue, hl, hs, if_true, omap_single]
    rw [hstrfun]
    cases he : expectedElem sct (PyVal.str (pyStr (PyVal.rat q))) with
    | none => rw [he] at hexp2; cases hexp2
    | some e =>
      rw [he] at hexp2
      simp only [Option.map_some', Option.some.injEq] at hexp2
      subst hexp2
      simp [he]
  | bool b =>
    have hexp2 : Option.map (fun e => PyVal.list [e])
        (expectedElem sct (PyVal.str (pyStr (PyVal.bool b)))) = some r := hexp
    simp only [setStoreVal, if_true, Option.some.injEq] at hstore
    subst hstore
    simp only [getValue, hl, hs, if_true, omap_single]
    rw [hstrfun]
    cases he : expectedElem sct (PyVal.str (pyStr (PyVal.bool b))) with
    | none => rw [he] at hexp2; cases hexp2
    | some e =>
      rw [he] at hexp2
      simp only [Option.map_some', Option.some.injEq] at hexp2
      subst hexp2
      simp [he]
  | tup xs =>
    have hexp2 : Option.map (fun e => PyVal.list [e])
        (expectedElem sct (PyVal.str (pyStr (PyVal.tup xs)))) = some r := hexp
    simp only [setStoreVal, if_true, Option.some.injEq] at hstore
    subst hstore
    simp only [getValue, hl, hs, if_true, omap_single]
    rw [hstrfun]
    cases he : expectedElem sct (PyVal.str (pyStr (PyVal.tup xs))) with
    | none => rw [he] at hexp2; cases hexp2
    | some e =>
      rw [he] at hexp2
      simp only [Option.map_some', Option.some.injEq] at hexp2
      subst hexp2
      simp [he]

theorem gv_scalar_plain (ty : String)
    (hl : isListType ty = false) (hp : typeHasParen ty = false)
    (h1 : ty ≠ "int") (h2 : ty ≠ "float") (h3 : ty ≠ "bool")
    (h4 : startsParen ty = false)
    (v r stored : PyVal) (dv : PyVal) (lk : String)
    (htc : typeCheck ty v = true)
    (hexp : expectedGet ty v = some r)
    (hstore : setStoreVal (isListType ty) (typeHasParen ty)
        (if ty = "bool" then boolToStrVal v else v) = some stored) :
    getValue { type := ty, value := stored, defvalue := dv, lock := lk } = some r := by
  rw [hl, hp, if_neg h3] at hstore
  simp only [expectedGet, hl, Bool.false_eq_true, if_false] at hexp
  cases v with
  | list xs =>
    simp only [typeCheck, hl, Bool.false_eq_true, false_and] at htc
    cases htc
  | pynone =>
    have hexp2 : some PyVal.pynone = some r := hexp
    simp only [Option.some.injEq] at hexp2
    subst hexp2
    simp only [setStoreVal, Bool.false_eq_true, if_false, Option.some.injEq] at hstore
    subst hstore
    simp [getValue, hl]
  | int n =>
    have hexp2 : (if ty = "int" then some (PyVal.int n)
      else if ty = "float" then some (PyVal.rat (n : ℚ))
      else if ty = "bool" then none
      else if startsParen ty then none
      else some (PyVal.str (intToStr n))) = some r := hexp
    rw [if_neg h1, if_neg h2, if_neg h3, h4] at hexp2
    simp only [Bool.false_eq_true, if_false, Option.some.injEq] at hexp2
    subst hexp2
    simp only [setStoreVal, Bool.false_eq_true, if_false, Option.some.injEq] at hstore
    subst hstore
    simp only [getValue, hl, Bool.false_eq_true, if_false]
    rw [if_neg h1, if_neg h2, if_neg h3, h4]
    simp [pyStr, pyRepr]
  | rat q =>
    have hexp2 : (if ty = "int" then some (PyVal.int (ratTrunc q))
      else if ty = "float" then some (PyVal.rat q)
      else if ty = "bool" then none
      else if startsParen ty then none
      else some (PyVal.str (ratToStr q))) = some r := hexp
    rw [if_neg h1, if_neg h2, if_neg h3, h4] at hexp2
    simp only [Bool.false_eq_true, if_false, Option.some.injEq] at hexp2
    subst hexp2
    simp only [setStoreVal, Bool.false_eq_true, if_false, Option.some.injEq] at hstore
    subst hstore
    simp only [getValue, hl, Bool.false_eq_true, if_false]
    rw [if_neg h1, if_neg h2, if_neg h3, h4]
    simp [pyStr, pyRepr]
  | bool b =>
    have hexp2 : (if ty = "int" then none
      else if ty = "float" then none
      else if ty = "bool" then some (PyVal.bool b)
      else if startsParen ty then none
      else some (PyVal.str (pyStr (PyVal.bool b)))) = some r := hexp
    rw [if_neg h1, if_neg h2, if_neg h3, h4] at hexp2
    simp only [Bool.false_eq_true, if_false, Option.some.injEq] at hexp2
    subst hexp2
    simp only [setStoreVal, Bool.false_eq_true, if_false, Option.some.injEq] at hstore
    subst hstore
    simp only [getValue, hl, Bool.false_eq_true, if_false]
    rw [if_neg h1, if_neg h2, if_neg h3, h4]
    simp [pyStr, pyRepr]
  | str s =>
    have hexp2 : (if ty = "int" then (strToRat? s).map fun q => PyVal.int (ratTrunc q)
      else if ty = "float" then (strToRat? s).map PyVal.rat
      else if ty = "bool" then some (PyVal.bool (s = "true"))
      else if startsParen ty then parseFloatTuple s
      else some (PyVal.str (s))) = some r := hexp
    rw [if_neg h1, if_neg h2, if_neg h3, h4] at hexp2
    simp only [Bool.false_eq_true, if_false, Option.some.injEq] at hexp2
    subst hexp2
    simp only [setStoreVal, Bool.false_eq_true, if_false, Option.some.injEq] at hstore
    subst hstore
    simp only [getValue, hl, Bool.false_eq_true, if_false]
    rw [if_neg h1, if_neg h2, if_neg h3, h4]
    simp [pyStr, pyRepr]
  | tup xs =>
    have hexp2 : (if ty = "int" then none
      else if ty = "float" then none
      else if ty = "bool" then none
      else if startsParen ty then (match xs with
        | [x, y] =>
          match tupNumVal x, tupNumVal y with
          | some qx, some qy => some (PyVal.tup [PyVal.rat qx, PyVal.rat qy])
          | _, _ => none
        | _ => none)
      else some (PyVal.str (pyStr (PyVal.tup xs)))) = some r := hexp
    rw [if_neg h1, if_neg h2, if_neg h3, h4] at hexp2
    simp only [Bool.false_eq_true, if_false, Option.some.injEq] at hexp2
    subst hexp2
    simp only [setStoreVal, Bool.false_eq_true, if_false, Option.some.injEq] at hstore
    subst hstore
    simp only [getValue, hl, Bool.false_eq_true, if_false]
    rw [if_neg h1, if_neg h2, if_neg h3, h4]
    simp [pyStr, pyRepr]

theorem getValue_after_set (ty : String) (v r stored : PyVal) (dv : PyVal) (lk : String)
    (hsupp : supportedType ty = true)
    (htc : typeCheck ty v = true)
    (hexp : expectedGet ty v = some r)
    (hstore : setStoreVal (isListType ty) (typeHasParen ty)
        (if ty = "bool" then boolToStrVal v else v) = some stored) :
    getValue { type := ty, value := stored, defvalue := dv, lock := lk } = some r := by
  simp only [supportedType, List.mem_cons, List.not_mem_nil, or_false,
    decide_eq_true_eq] at hsupp
  rcases hsupp with rfl | rfl | rfl | rfl | rfl | rfl | rfl | rfl | rfl | rfl | rfl | rfl | rfl | rfl
  · exact gv_scalar_plain "str" rfl rfl (by decide) (by decide) (by decide) rfl
      v r stored dv lk htc hexp hstore
  · exact gv_scalar_plain "file" rfl rfl (by decide) (by decide) (by decide) rfl
      v r stored dv lk htc hexp hstore
  · exact gv_scalar_plain "dir" rfl rfl (by decide) (by decide) (by decide) rfl
      v r stored dv lk htc hexp hstore
  · exact gv_scalar_int v r stored dv lk htc hexp hstore
  · exact gv_scalar_float v r stored dv lk htc hexp hstore
  · exact gv_scalar_bool v r stored dv lk htc hexp hstore
  · exact gv_scalar_floatpair v r stored dv lk htc hexp hstore
  · exact gv_list_raw "[str]" "str" rfl rfl rfl (by decide) (funext fun _ => rfl)
      v r stored dv lk hexp hstore
  · exact gv_list_raw "[file]" "file" rfl rfl rfl (by decide) (funext fun _ => rfl)
      v r stored dv lk hexp hstore
  · exact gv_list_raw "[dir]" "dir" rfl rfl rfl (by decide) (funext fun _ => rfl)
      v r stored dv lk hexp hstore
  · exact gv_list_raw "[int]" "int" rfl rfl rfl (by decide) (funext fun _ => rfl)
      v r stored dv lk hexp hstore
  · exact gv_list_raw "[float]" "float" rfl rfl rfl (by decide) (funext fun _ => rfl)
      v r stored dv lk hexp hstore
  · exact gv_list_tuple "[(str,str)]" "(str,str)" rfl rfl rfl (by decide)
      trans_strstr (fun _ => rfl) v r stored dv lk hexp hstore
  · exact gv_list_tuple "[(float,float)]" "(float,float)" rfl rfl rfl (by decide)
      trans_floatfloat (fun _ => rfl) v r stored dv lk hexp hstore

theorem setStoreVal_isSome (ty : String) (v : PyVal) (htc : typeCheck ty v = true) :
    (setStoreVal (isListType ty) (typeHasParen ty)
      (if ty = "bool" then boolToStrVal v else v)).isSome = true := by
  by_cases hb : ty = "bool"
  · subst hb
    cases v with
    | list xs => simp [typeCheck, isListType] at htc
    | bool b => cases b <;> simp [boolToStrVal, setStoreVal, isListType]
    | pynone => simp [boolToStrVal, setStoreVal, isListType]
    | str s => simp [boolToStrVal, setStoreVal, isListType]
    | int n => simp [boolToStrVal, setStoreVal, isListType]
    | rat q => simp [boolToStrVal, setStoreVal, isListType]
    | tup xs => simp [boolToStrVal, setStoreVal, isListType]
  · rw [if_neg hb]
    cases v with
    | list xs =>
      have hl : isListType ty = true := by
        cases hl2 : isListType ty with
        | true => rfl
        | false => simp [typeCheck, hl2] at htc
      simp [setStoreVal, hl]
      split <;> simp
    | pynone => cases hl2 : isListType ty <;> simp [setStoreVal, hl2]
    | str s => cases hl2 : isListType ty <;> simp [setStoreVal, hl2]
    | int n => cases hl2 : isListType ty <;> simp [setStoreVal, hl2]
    | rat q => cases hl2 : isListType ty <;> simp [setStoreVal, hl2]
    | bool b => cases hl2 : isListType ty <;> simp [setStoreVal, hl2]
    | tup xs => cases hl2 : isListType ty <;> simp [setStoreVal, hl2]

theorem searchLeafSA_set_ok (children : List (String × Cfg)) (key : String)
    (v : PyVal) (p : Param) (r : PyVal)
    (hres : resolveParam (.node children) [key] = some p)
    (hlock : p.lock ≠ "true")
    (hsupp : supportedType p.type = true)
    (htc : typeCheck p.type v = true)
    (hexp : expectedGet p.type v = some r) :
    ∃ stored,
      setStoreVal (isListType p.type) (typeHasParen p.type)
        (if p.type = "bool" then boolToStrVal v else v) = some stored ∧
      searchLeafSA .set true children key v
        = some (childSet children key (.leaf { p with value := stored }), false) := by
  obtain ⟨stored, hstored⟩ :=
    Option.isSome_iff_exists.mp (setStoreVal_isSome p.type v htc)
  refine ⟨stored, hstored, ?_⟩
  simp only [resolveParam] at hres
  unfold searchLeafSA
  cases hcg : childGet children key with
  | some child =>
    rw [hcg] at hres
    cases child with
    | node cs => cases hres
    | leaf p0 =>
      simp only [Option.some.injEq] at hres
      subst hres
      simp only [htc, hlock, hstored]
      simp [if_neg hlock]
  | none =>
    rw [hcg] at hres
    cases hcd : childGet children "default" with
    | none => rw [hcd] at hres; cases hres
    | some d =>
      rw [hcd] at hres
      cases d with
      | node cs => cases hres
      | leaf p0 =>
        simp only [Option.some.injEq] at hres
        subst hres
        simp only [hcg, hcd, htc, hlock, hstored]
        simp [if_neg hlock, childSet_childSet]

theorem set_get_roundtrip (cfg : Cfg) (path : List String) (v : PyVal) (p : Param) (r : PyVal)
    (hres : resolveParam cfg path = some p)
    (hlock : p.lock ≠ "true")
    (hsupp : supportedType p.type = true)
    (htc : typeCheck p.type v = true)
    (hexp : expectedGet p.type v = some r) :
    ∃ cfg2, searchSA .set true cfg path v = some (cfg2, false) ∧
      searchGet cfg2 path = some (r, cfg2, false) := by
  induction path generalizing cfg with
  | nil => cases cfg <;> simp [resolveParam] at hres
  | cons key rest ih =>
    cases cfg with
    | leaf p0 => simp [resolveParam] at hres
    | node children =>
      cases rest with
      | nil =>
        obtain ⟨stored, hstored, hleaf⟩ :=
          searchLeafSA_set_ok children key v p r hres hlock hsupp htc hexp
        refine ⟨.node (childSet children key (.leaf { p with value := stored })), ?_, ?_⟩
        · simp only [searchSA, hleaf, Option.map_some']
        · simp only [searchGet, childGet_childSet_self]
          rw [getValue_after_set p.type v r stored p.defvalue p.lock hsupp htc hexp hstored]
          rfl
      | cons k2 ks =>
        simp only [resolveParam] at hres
        cases hcg : childGet children key with
        | some child =>
          rw [hcg] at hres
          obtain ⟨c2, hset, hget⟩ := ih child hres
          refine ⟨.node (childSet children key c2), ?_, ?_⟩
          · simp only [searchSA, hcg, hset, Option.map_some']
          · simp only [searchGet, childGet_childSet_self, hget, Option.map_some',
              childSet_childSet]
        | none =>
          rw [hcg] at hres
          cases hcd : childGet children "default" with
          | none => rw [hcd] at hres; cases hres
          | some d =>
            rw [hcd] at hres
            obtain ⟨c2, hset, hget⟩ := ih d hres
            refine ⟨.node (childSet children key c2), ?_, ?_⟩
            · simp only [searchSA, hcg, hcd, hset, Option.map_some']
            · simp only [searchGet, childGet_childSet_self, hget, Option.map_some',
                childSet_childSet]

/-! ### `add` and the clobber rule -/

/-- Is the value a Python list? -/
def isPyList : PyVal → Bool
  | .list _ => true
  | _ => false

theorem isListType_ne_bool (ty : String) (h : isListType ty = true) : ty ≠ "bool" := by
  intro habs
  subst habs
  exact absurd h (by decide)

theorem omap_append_single {α β : Type} (f : α → Option β) (xs : List α) (ys : List β)
    (x : α) (y : β) (hxs : omap f xs = some ys) (hx : f x = some y) :
    omap f (xs ++ [x]) = some (ys ++ [y]) := by
  induction xs generalizing ys with
  | nil =>
    simp only [omap, Option.some.injEq] at hxs
    subst hxs
    simp [omap, hx]
  | cons a rest ih =>
    simp only [omap] at hxs
    cases ha : f a with
    | none => rw [ha] at hxs; cases hxs
    | some b =>
      rw [ha] at hxs
      cases hrest : omap f rest with
      | none => rw [hrest] at hxs; cases hxs
      | some bs =>
        rw [hrest] at hxs
        simp only [Option.some.injEq] at hxs
        subst hxs
        simp only [List.cons_append, omap, List.append_eq, ha, ih bs hrest]

theorem searchLeafSA_add_list (children : List (String × Cfg)) (key : String)
    (w : PyVal) (p : Param) (vs : List PyVal)
    (hres : resolveParam (.node children) [key] = some p)
    (hlock : p.lock ≠ "true")
    (hlist : isListType p.type = true)
    (hvs : p.value = .list vs)
    (hw : isPyList w = false)
    (htc : typeCheck p.type w = true) :
    searchLeafSA .add true children key w
      = some (childSet children key
          (.leaf { p with value := .list (vs ++ [.str (pyStr w)]) }), false) := by
  have hbool := isListType_ne_bool p.type hlist
  simp only [resolveParam] at hres
  unfold searchLeafSA
  cases hcg : childGet children key with
  | some child =>
    rw [hcg] at hres
    cases child with
    | node cs => cases hres
    | leaf p0 =>
      simp only [Option.some.injEq] at hres
      subst hres
      simp only [htc, if_neg hbool, if_neg hlock]
      cases w <;> simp_all [isPyList, hlist, hvs]
  | none =>
    rw [hcg] at hres
    cases hcd : childGet children "default" with
    | none => rw [hcd] at hres; cases hres
    | some d =>
      rw [hcd] at hres
      cases d with
      | node cs => cases hres
      | leaf p0 =>
        simp only [Option.some.injEq] at hres
        subst hres
        simp only [hcg, hcd, htc, if_neg hbool, if_neg hlock]
        cases w <;> simp_all [isPyList, hlist, hvs, childSet_childSet]

theorem searchLeafSA_add_scalar (children : List (String × Cfg)) (key : String)
    (w : PyVal) (p : Param)
    (hres : resolveParam (.node children) [key] = some p)
    (hlock : p.lock ≠ "true")
    (hscalar : isListType p.type = false) :
    ∃ children2, searchLeafSA .add true children key w = some (children2, true) ∧
      childGet children2 key = some (.leaf p) := by
  simp only [resolveParam] at hres
  unfold searchLeafSA
  cases hcg : childGet children key with
  | some child =>
    rw [hcg] at hres
    cases child with
    | node cs => cases hres
    | leaf p0 =>
      simp only [Option.some.injEq] at hres
      subst hres
      refine ⟨children, ?_, hcg⟩
      simp only [hscalar, if_neg hlock, Bool.false_eq_true, if_false]
      split <;> rfl
  | none =>
    rw [hcg] at hres
    cases hcd : childGet children "default" with
    | none => rw [hcd] at hres; cases hres
    | some d =>
      rw [hcd] at hres
      cases d with
      | node cs => cases hres
      | leaf p0 =>
        simp only [Option.some.injEq] at hres
        subst hres
        refine ⟨childSet children key (.leaf p0), ?_, childGet_childSet_self _ _ _⟩
        simp only [hcg, hcd, hscalar, if_neg hlock, Bool.false_eq_true, if_false]
        split <;> rfl

theorem add_list_roundtrip (cfg : Cfg) (path : List String) (w : PyVal) (p : Param)
    (vs olds : List PyVal) (w2 : PyVal)
    (hres : resolveParam cfg path = some p)
    (hlock : p.lock ≠ "true")
    (hlist : isListType p.type = true)
    (hvs : p.value = .list vs)
    (hw : isPyList w = false)
    (htc : typeCheck p.type w = true)
    (holds : omap (coerceListItem (stripBrackets p.type)) vs = some olds)
    (hw2 : coerceListItem (stripBrackets p.type) (.str (pyStr w)) = some w2) :
    ∃ cfg2, searchSA .add true cfg path w = some (cfg2, false) ∧
      searchGet cfg2 path = some (.list (olds ++ [w2]), cfg2, false) := by
  induction path generalizing cfg with
  | nil => cases cfg <;> simp [resolveParam] at hres
  | cons key rest ih =>
    cases cfg with
    | leaf p0 => simp [resolveParam] at hres
    | node children =>
      cases rest with
      | nil =>
        have hleaf := searchLeafSA_add_list children key w p vs hres hlock hlist hvs hw htc
        refine ⟨.node (childSet children key
          (.leaf { p with value := .list (vs ++ [.str (pyStr w)]) })), ?_, ?_⟩
        · simp only [searchSA, hleaf, Option.map_some']
        · simp only [searchGet, childGet_childSet_self]
          have hgv : getValue { p with value := .list (vs ++ [.str (pyStr w)]) }
              = some (.list (olds ++ [w2])) := by
            simp only [getValue, hlist, if_true]
            rw [omap_append_single _ vs olds _ w2 holds hw2]
            rfl
          rw [hgv]
          rfl
      | cons k2 ks =>
        simp only [resolveParam] at hres
        cases hcg : childGet children key with
        | some child =>
          rw [hcg] at hres
          obtain ⟨c2, hset, hget⟩ := ih child hres
          refine ⟨.node (childSet children key c2), ?_, ?_⟩
          · simp only [searchSA, hcg, hset, Option.map_some']
          · simp only [searchGet, childGet_childSet_self, hget, Option.map_some',
              childSet_childSet]
        | none =>
          rw [hcg] at hres
          cases hcd : childGet children "default" with
          | none => rw [hcd] at hres; cases hres
          | some d =>
            rw [hcd] at hres
            obtain ⟨c2, hset, hget⟩ := ih d hres
            refine ⟨.node (childSet children key c2), ?_, ?_⟩
            · simp only [searchSA, hcg, hcd, hset, Option.map_some']
            · simp only [searchGet, childGet_childSet_self, hget, Option.map_some',
                childSet_childSet]

theorem add_scalar_error (cfg : Cfg) (path : List String) (w : PyVal) (p : Param)
    (hres : resolveParam cfg path = some p)
    (hlock : p.lock ≠ "true")
    (hscalar : isListType p.type = false) :
    ∃ cfg2, searchSA .add true cfg path w = some (cfg2, true) ∧
      resolveParam cfg2 path = some p := by
  induction path generalizing cfg with
  | nil => cases cfg <;> simp [resolveParam] at hres
  | cons key rest ih =>
    cases cfg with
    | leaf p0 => simp [resolveParam] at hres
    | node children =>
      cases rest with
      | nil =>
        obtain ⟨children2, hleaf, hcg2⟩ :=
          searchLeafSA_add_scalar children key w p hres hlock hscalar
        refine ⟨.node children2, ?_, ?_⟩
        · simp only [searchSA, hleaf, Option.map_some']
        · simp only [resolveParam, hcg2]
      | cons k2 ks =>
        simp only [resolveParam] at hres
        cases hcg : childGet children key with
        | some child =>
          rw [hcg] at hres
          obtain ⟨c2, hadd, hres2⟩ := ih child hres
          refine ⟨.node (childSet children key c2), ?_, ?_⟩
          · simp only [searchSA, hcg, hadd, Option.map_some']
          · simp only [resolveParam, childGet_childSet_self, hres2]
        | none =>
          rw [hcg] at hres
          cases hcd : childGet children "default" with
          | none => rw [hcd] at hres; cases hres
          | some d =>
            rw [hcd] at hres
            obtain ⟨c2, hadd, hres2⟩ := ih d hres
            refine ⟨.node (childSet children key c2), ?_, ?_⟩
            · simp only [searchSA, hcg, hcd, hadd, Option.map_some']
            · simp only [resolveParam, childGet_childSet_self, hres2]

theorem searchLeafSA_setF_write (children : List (String × Cfg)) (key : String)
    (v : PyVal) (p : Param) (stored : PyVal)
    (hres : resolveParam (.node children) [key] = some p)
    (hlock : p.lock ≠ "true")
    (htc : typeCheck p.type v = true)
    (hsent : isEmptySentinel p.value = true)
    (hstored : setStoreVal (isListType p.type) (typeHasParen p.type)
        (if p.type = "bool" then boolToStrVal v else v) = some stored) :
    searchLeafSA .set false children key v
      = some (childSet children key (.leaf { p with value := stored }), false) := by
  simp only [resolveParam] at hres
  unfold searchLeafSA
  cases hcg : childGet children key with
  | some child =>
    rw [hcg] at hres
    cases child with
    | node cs => cases hres
    | leaf p0 =>
      simp only [Option.some.injEq] at hres
      subst hres
      simp only [htc, hsent, hstored, if_neg hlock]
      simp
  | none =>
    rw [hcg] at hres
    cases hcd : childGet children "default" with
    | none => rw [hcd] at hres; cases hres
    | some d =>
      rw [hcd] at hres
      cases d with
      | node cs => cases hres
      | leaf p0 =>
        simp only [Option.some.injEq] at hres
        subst hres
        simp only [hcg, hcd, htc, hsent, hstored, if_neg hlock]
        simp [childSet_childSet]

theorem searchLeafSA_setF_skip (children : List (String × Cfg)) (key : String)
    (v : PyVal) (p : Param)
    (hres : resolveParam (.node children) [key] = some p)
    (hlock : p.lock ≠ "true")
    (htc : typeCheck p.type v = true)
    (hsent : isEmptySentinel p.value = false) :
    ∃ children2, searchLeafSA .set false children key v = some (children2, false) ∧
      childGet children2 key = some (.leaf p) := by
  simp only [resolveParam] at hres
  unfold searchLeafSA
  cases hcg : childGet children key with
  | some child =>
    rw [hcg] at hres
    cases child with
    | node cs => cases hres
    | leaf p0 =>
      simp only [Option.some.injEq] at hres
      subst hres
      refine ⟨children, ?_, hcg⟩
      simp only [htc, hsent, if_neg hlock]
      simp
  | none =>
    rw [hcg] at hres
    cases hcd : childGet children "default" with
    | none => rw [hcd] at hres; cases hres
    | some d =>
      rw [hcd] at hres
      cases d with
      | node cs => cases hres
      | leaf p0 =>
        simp only [Option.some.injEq] at hres
        subst hres
        refine ⟨childSet children key (.leaf p0), ?_, childGet_childSet_self _ _ _⟩
        simp only [hcg, hcd, htc, hsent, if_neg hlock]
        simp

theorem setF_write_roundtrip (cfg : Cfg) (path : List String) (v : PyVal) (p : Param)
    (stored : PyVal)
    (hres : resolveParam cfg path = some p)
    (hlock : p.lock ≠ "true")
    (htc : typeCheck p.type v = true)
    (hsent : isEmptySentinel p.value = true)
    (hstored : setStoreVal (isListType p.type) (typeHasParen p.type)
        (if p.type = "bool" then boolToStrVal v else v) = some stored) :
    ∃ cfg2, searchSA .set false cfg path v = some (cfg2, false) ∧
      resolveParam cfg2 path = some { p with value := stored } := by
  induction path generalizing cfg with
  | nil => cases cfg <;> simp [resolveParam] at hres
  | cons key rest ih =>
    cases cfg with
    | leaf p0 => simp [resolveParam] at hres
    | node children =>
      cases rest with
      | nil =>
        have hleaf := searchLeafSA_setF_write children key v p stored hres hlock htc
          hsent hstored
        refine ⟨.node (childSet children key (.leaf { p with value := stored })), ?_, ?_⟩
        · simp only [searchSA, hleaf, Option.map_some']
        · simp only [resolveParam, childGet_childSet_self]
      | cons k2 ks =>
        simp only [resolveParam] at hres
        cases hcg : childGet children key with
        | some child =>
          rw [hcg] at hres
          obtain ⟨c2, hset, hres2⟩ := ih child hres
          refine ⟨.node (childSet children key c2), ?_, ?_⟩
          · simp only [searchSA, hcg, hset, Option.map_some']
          · simp only [resolveParam, childGet_childSet_self, hres2]
        | none =>
          rw [hcg] at hres
          cases hcd : childGet children "default" with
          | none => rw [hcd] at hres; cases hres
          | some d =>
            rw [hcd] at hres
            obtain ⟨c2, hset, hres2⟩ := ih d hres
            refine ⟨.node (childSet children key c2), ?_, ?_⟩
            · simp only [searchSA, hcg, hcd, hset, Option.map_some']
            · simp only [resolveParam, childGet_childSet_self, hres2]

theorem setF_skip_noop (cfg : Cfg) (path : List String) (v : PyVal) (p : Param)
    (hres : resolveParam cfg path = some p)
    (hlock : p.lock ≠ "true")
    (htc : typeCheck p.type v = true)
    (hsent : isEmptySentinel p.value = false) :
    ∃ cfg2, searchSA .set false cfg path v = some (cfg2, false) ∧
      resolveParam cfg2 path = some p := by
  induction path generalizing cfg with
  | nil => cases cfg <;> simp [resolveParam] at hres
  | cons key rest ih =>
    cases cfg with
    | leaf p0 => simp [resolveParam] at hres
    | node children =>
      cases rest with
      | nil =>
        obtain ⟨children2, hleaf, hcg2⟩ :=
          searchLeafSA_setF_skip children key v p hres hlock htc hsent
        refine ⟨.node children2, ?_, ?_⟩
        · simp only [searchSA, hleaf, Option.map_some']
        · simp only [resolveParam, hcg2]
      | cons k2 ks =>
        simp only [resolveParam] at hres
        cases hcg : childGet children key with
        | some child =>
          rw [hcg] at hres
          obtain ⟨c2, hset, hres2⟩ := ih child hres
          refine ⟨.node (childSet children key c2), ?_, ?_⟩
          · simp only [searchSA, hcg, hset, Option.map_some']
          · simp only [resolveParam, childGet_childSet_self, hres2]
        | none =>
          rw [hcg] at hres
          cases hcd : childGet children "default" with
          | none => rw [hcd] at hres; cases hres
          | some d =>
            rw [hcd] at hres
            obtain ⟨c2, hset, hres2⟩ := ih d hres
            refine ⟨.node (childSet children key c2), ?_, ?_⟩
            · simp only [searchSA, hcg, hcd, hset, Option.map_some']
            · simp only [resolveParam, childGet_childSet_self, hres2]

/-! ### Chip-level state: the object error flag

`Chip.__init__` sets `self.error = 0`; every error site in the schema
operations executes `self.error = 1`.  The embedded operations return
whether they raised the flag; the chip-level wrappers fold that into the
state exactly as the Python assignments do. -/

structure ChipState where
  cfg : Cfg
  error : Nat

/-- `Chip.__init__`: the error flag starts at 0. -/
def chipInit (cfg0 : Cfg) : ChipState := { cfg := cfg0, error := 0 }

/-- `Chip.set` at the object level. -/
def chipSet (st : ChipState) (path : List String) (v : PyVal) (clobber : Bool) :
    Option ChipState :=
  (searchSA .set clobber st.cfg path v).map fun r =>
    { cfg := r.1, error := if r.2 then 1 else st.error }

/-- `Chip.add` at the object level. -/
def chipAdd (st : ChipState) (path : List String) (v : PyVal) : Option ChipState :=
  (searchSA .add true st.cfg path v).map fun r =>
    { cfg := r.1, error := if r.2 then 1 else st.error }

/-- `Chip.get` at the object level. -/
def chipGet (st : ChipState) (path : List String) : Option (PyVal × ChipState) :=
  (searchGet st.cfg path).map fun r =>
    (r.1, { cfg := r.2.1, error := if r.2.2 then 1 else st.error })

/-- `Chip.getkeys` with a keypath at the object level. -/
def chipGetkeys (st : ChipState) (path : List String) :
    Option (List String × ChipState) :=
  (getkeysAt st.cfg path).map fun r =>
    (r.1, { cfg := r.2.1, error := if r.2.2 then 1 else st.error })

/-! ### The orchestrator's halt computation (`run`, lines 3780-3790)

```
halt = 0
for step in steplist:
    index_error = 1
    for index in indexlist[step]:
        stepstr = step + index
        index_error = index_error & error[stepstr]
    halt = halt + index_error
if halt: sys.exit(1)
```
-/

def runHalt (steplist : List String) (indexlist : String → List String)
    (error : String → Nat) : Nat :=
  steplist.foldl
    (fun halt step =>
      halt + (indexlist step).foldl (fun ie index => ie &&& error (step ++ index)) 1)
    0

theorem foldl_land_zero (l : List String) (e : String → Nat) :
    l.foldl (fun ie x => ie &&& e x) 0 = 0 := by
  induction l with
  | nil => rfl
  | cons x rest ih => simpa [Nat.zero_and] using ih

theorem foldl_land_one_iff (l : List String) (e : String → Nat)
    (hb : ∀ x ∈ l, e x ≤ 1) :
    l.foldl (fun ie x => ie &&& e x) 1 = 1 ↔ ∀ x ∈ l, e x = 1 := by
  induction l with
  | nil => simp
  | cons x rest ih =>
    simp only [List.foldl_cons]
    have hx := hb x (by simp)
    interval_cases hex : e x
    · rw [show (1 : Nat) &&& 0 = 0 from rfl]
      rw [foldl_land_zero]
      simp [hex]
    · rw [show (1 : Nat) &&& 1 = 1 from rfl]
      rw [ih fun y hy => hb y (by simp [hy])]
      constructor
      · intro h y hy
        rcases List.mem_cons.mp hy with rfl | hy2
        · exact hex
        · exact h y hy2
      · intro h y hy
        exact h y (by simp [hy])

theorem foldl_land_eq_zero_or_one (l : List String) (e : String → Nat)
    (hb : ∀ x ∈ l, e x ≤ 1) :
    l.foldl (fun ie x => ie &&& e x) 1 = 0 ∨ l.foldl (fun ie x => ie &&& e x) 1 = 1 := by
  induction l with
  | nil => simp
  | cons x rest ih =>
    simp only [List.foldl_cons]
    have hx := hb x (by simp)
    interval_cases hex : e x
    · rw [show (1 : Nat) &&& 0 = 0 from rfl, foldl_land_zero]
      left
      rfl
    · rw [show (1 : Nat) &&& 1 = 1 from rfl]
      exact ih fun y hy => hb y (by simp [hy])

theorem foldl_add_sum (l : List String) (f : String → Nat) (a : Nat) :
    l.foldl (fun h s => h + f s) a = a + (l.map f).sum := by
  induction l generalizing a with
  | nil => simp
  | cons x rest ih =>
    simp only [List.foldl_cons, List.map_cons, List.sum_cons, ih]
    omega

theorem runHalt_ne_zero_iff (steplist : List String) (indexlist : String → List String)
    (error : String → Nat) (hb : ∀ n, error n ≤ 1) :
    runHalt steplist indexlist error ≠ 0 ↔
      ∃ step ∈ steplist, ∀ index ∈ indexlist step, error (step ++ index) = 1 := by
  unfold runHalt
  rw [foldl_add_sum]
  simp only [Nat.zero_add]
  rw [ne_eq]
  constructor
  · intro h
    have : ∃ m ∈ (steplist.map fun step =>
        (indexlist step).foldl (fun ie index => ie &&& error (step ++ index)) 1), m ≠ 0 := by
      by_contra habs
      push_neg at habs
      exact h (List.sum_eq_zero habs)
    obtain ⟨m, hm, hmne⟩ := this
    obtain ⟨step, hstep, hfold⟩ := List.mem_map.mp hm
    subst hfold
    refine ⟨step, hstep, ?_⟩
    rw [← foldl_land_one_iff _ _ fun x _ => hb _]
    rcases foldl_land_eq_zero_or_one (indexlist step)
        (fun index => error (step ++ index)) (fun x _ => hb _) with h0 | h1
    · exact absurd h0 hmne
    · exact h1
  · rintro ⟨step, hstep, hall⟩ hsum
    have h1 : (indexlist step).foldl (fun ie index => ie &&& error (step ++ index)) 1 = 1 :=
      (foldl_land_one_iff _ _ fun x _ => hb _).mpr hall
    have hmem := List.mem_map_of_mem
      (fun step => (indexlist step).foldl (fun ie index => ie &&& error (step ++ index)) 1)
      hstep
    have h0 := List.sum_eq_zero_iff.mp hsum _ hmem
    simp only [] at h0
    rw [h1] at h0
    cases h0

/-! ### `_minmax`: the weighted-score selection of `minimum`/`maximum`

The metric/weight environment a `_minmax` call reads through `get`:
`flowstatus/<s>/<i>/error`, the metric names under `metric/<s>/<i>`, their
`goal` (when defined) and `real` values, the metric names under the
flowgraph node's `weight` dict, and the weight values (`none` models null).
Floats are rationals. -/

structure MinmaxEnv where
  flowError : String → String → Nat
  metricKeys : String → String → List String
  hasGoal : String → String → String → Bool
  goal : String → String → String → ℚ
  real : String → String → String → ℚ
  weightKeys : String → String → List String
  weight : String → String → String → Option ℚ

/-- The eligibility loop: an input fails when its error bit is set or some
goal-equipped metric has `abs(real) > goal`. -/
def taskFailed (env : MinmaxEnv) (step index : String) : Bool :=
  if env.flowError step index ≠ 0 then true
  else
    (env.metricKeys step index).any fun metric =>
      env.hasGoal step index metric &&
        |env.real step index metric| > env.goal step index metric

/-- `min_val[metric]`: fold of `min` over the non-failed inputs, starting
from `float('inf')` (modelled as `none`). -/
def minmaxMinVal (env : MinmaxEnv) (eligible : List (String × String)) (metric : String) :
    Option ℚ :=
  eligible.foldl
    (fun acc si =>
      some (match acc with
        | none => env.real si.1 si.2 metric
        | some m => min m (env.real si.1 si.2 metric)))
    none

/-- `max_val[metric]`: fold of `max` over the non-failed inputs, starting
from 0. -/
def minmaxMaxVal (env : MinmaxEnv) (eligible : List (String × String)) (metric : String) : ℚ :=
  eligible.foldl (fun acc si => max acc (env.real si.1 si.2 metric)) 0

/-- The per-input score: over the node's weight metrics, skipping null or
zero weights, add `scaled * weight` where `scaled` normalises `real` into
the eligible range (or is `max_val` when the range is zero).  A `none`
minimum cannot be reached from the scoring loop, since the loop only runs
when some input is eligible. -/
def minmaxScore (env : MinmaxEnv) (mn : String → Option ℚ) (mx : String → ℚ)
    (step index : String) : ℚ :=
  (env.weightKeys step index).foldl
    (fun score metric =>
      match env.weight step index metric with
      | none => score
      | some w =>
        if w = 0 then score
        else
          let real := env.real step index metric
          let scaled :=
            match mn metric with
            | none => 0
            | some m => if ¬(mx metric - m = 0) then (real - m) / (mx metric - m) else mx metric
          score + scaled * w)
    0

inductive MMOp where
  | minimum
  | maximum

/-- `Chip._minmax`: eligibility filtering, per-metric normalisation bounds,
weighted scores, and strict-improvement selection (first eligible wins ties).
`none` components model `float('inf')` / `float('-inf')` / a `None` winner.
The Python loop computes `min_val`/`max_val` only for the metrics under the
last step's index-'0' `weight` dict (the loop variable `step` retains its
final value); here the bounds are total functions of the metric, which
coincide on those keys. -/
def minmax (env : MinmaxEnv) (op : MMOp) (steplist : List (String × String)) :
    Option ℚ × Option (String × String) :=
  let eligible := steplist.filter fun si => !taskFailed env si.1 si.2
  let mn := minmaxMinVal env eligible
  let mx := minmaxMaxVal env eligible
  steplist.foldl
    (fun best si =>
      if taskFailed env si.1 si.2 then best
      else
        let score := minmaxScore env mn mx si.1 si.2
        let better : Bool :=
          match best.1 with
          | none => true
          | some b =>
            match op with
            | MMOp.minimum => decide (score < b)
            | MMOp.maximum => decide (b < score)
        if better then (some score, some si) else best)
    (none, none)

theorem minmax_fold_not_winner (env : MinmaxEnv) (op : MMOp)
    (mn : String → Option ℚ) (mx : String → ℚ)
    (l : List (String × String)) (best : Option ℚ × Option (String × String))
    (s i : String) (hfail : taskFailed env s i = true)
    (hbest : best.2 ≠ some (s, i)) :
    (l.foldl (fun best si =>
      if taskFailed env si.1 si.2 then best
      else
        let score := minmaxScore env mn mx si.1 si.2
        let better : Bool :=
          match best.1 with
          | none => true
          | some b =>
            match op with
            | MMOp.minimum => decide (score < b)
            | MMOp.maximum => decide (b < score)
        if better then (some score, some si) else best) best).2 ≠ some (s, i) := by
  induction l generalizing best with
  | nil => exact hbest
  | cons si rest ih =>
    simp only [List.foldl_cons]
    apply ih
    by_cases hf : taskFailed env si.1 si.2
    · rw [if_pos hf]
      exact hbest
    · rw [if_neg hf]
      split
      · simp only [ne_eq, Option.some.injEq]
        intro habs
        rw [habs] at hf
        exact hf hfail
      · exact hbest

theorem minmax_failed_not_winner (env : MinmaxEnv) (op : MMOp)
    (steplist : List (String × String)) (s i : String)
    (hfail : taskFailed env s i = true) :
    (minmax env op steplist).2 ≠ some (s, i) := by
  unfold minmax
  exact minmax_fold_not_winner env op _ _ steplist (none, none) s i hfail (by simp)

/-- The score `_minmax` assigns when only one input is eligible: metrics
with positive `real` contribute `real * weight` (zero range, `scaled`
falls back to `max_val = real`), metrics with non-positive `real`
contribute 0. -/
def singleEligibleScore (env : MinmaxEnv) (s i : String) : ℚ :=
  (env.weightKeys s i).foldl
    (fun score metric =>
      match env.weight s i metric with
      | none => score
      | some w => if w = 0 then score else score + max (env.real s i metric) 0 * w)
    0

theorem scaled_single (r : ℚ) :
    (if ¬(max 0 r - r = 0) then (r - r) / (max 0 r - r) else max 0 r) = max r 0 := by
  rcases lt_trichotomy r 0 with h | h | h
  · have hmax0 : max 0 r = 0 := max_eq_left (le_of_lt h)
    rw [hmax0]
    rw [if_pos (by intro habs; exact absurd (by linarith : r = 0) (ne_of_lt h))]
    rw [sub_self, zero_div, max_eq_right (le_of_lt h)]
  · subst h
    simp
  · rw [max_eq_right (le_of_lt h), max_eq_left (le_of_lt h)]
    simp

theorem minmaxScore_single (env : MinmaxEnv) (s i : String) :
    minmaxScore env (minmaxMinVal env [(s, i)]) (minmaxMaxVal env [(s, i)]) s i
      = singleEligibleScore env s i := by
  unfold minmaxScore singleEligibleScore
  apply List.foldl_ext
  intro score metric hmem
  have hmn : minmaxMinVal env [(s, i)] metric = some (env.real s i metric) := rfl
  have hmx : minmaxMaxVal env [(s, i)] metric = max 0 (env.real s i metric) := rfl
  cases env.weight s i metric with
  | none => rfl
  | some w =>
    simp only []
    by_cases hw : w = 0
    · rw [if_pos hw, if_pos hw]
    · rw [if_neg hw, if_neg hw, hmn, hmx]
      simp only []
      rw [scaled_single (env.real s i metric)]

theorem minmax_fold_all_failed (env : MinmaxEnv) (op : MMOp)
    (mn : String → Option ℚ) (mx : String → ℚ)
    (l : List (String × String)) (best : Option ℚ × Option (String × String))
    (hall : ∀ x ∈ l, taskFailed env x.1 x.2 = true) :
    (l.foldl (fun best si =>
      if taskFailed env si.1 si.2 then best
      else
        let score := minmaxScore env mn mx si.1 si.2
        let better : Bool :=
          match best.1 with
          | none => true
          | some b =>
            match op with
            | MMOp.minimum => decide (score < b)
            | MMOp.maximum => decide (b < score)
        if better then (some score, some si) else best) best) = best := by
  induction l generalizing best with
  | nil => rfl
  | cons si rest ih =>
    simp only [List.foldl_cons]
    rw [if_pos (hall si (by simp))]
    exact ih best fun x hx => hall x (by simp [hx])

theorem minmax_fold_single (env : MinmaxEnv) (op : MMOp)
    (mn : String → Option ℚ) (mx : String → ℚ)
    (l : List (String × String)) (s i : String)
    (hfilter : l.filter (fun si => !taskFailed env si.1 si.2) = [(s, i)]) :
    (l.foldl (fun best si =>
      if taskFailed env si.1 si.2 then best
      else
        let score := minmaxScore env mn mx si.1 si.2
        let better : Bool :=
          match best.1 with
          | none => true
          | some b =>
            match op with
            | MMOp.minimum => decide (score < b)
            | MMOp.maximum => decide (b < score)
        if better then (some score, some si) else best) (none, none))
      = (some (minmaxScore env mn mx s i), some (s, i)) := by
  induction l with
  | nil => cases hfilter
  | cons si0 rest ih =>
    by_cases hf : taskFailed env si0.1 si0.2
    · have hrest : rest.filter (fun si => !taskFailed env si.1 si.2) = [(s, i)] := by
        rw [← hfilter]
        simp [List.filter_cons, hf]
      simp only [List.foldl_cons]
      rw [if_pos hf]
      exact ih hrest
    · have hthis : si0 :: rest.filter (fun si => !taskFailed env si.1 si.2) = [(s, i)] := by
        rw [← hfilter]
        simp [List.filter_cons, hf]
      have hsi : si0 = (s, i) := by injection hthis
      have hrest : rest.filter (fun si => !taskFailed env si.1 si.2) = [] := by
        injection hthis
      subst hsi
      have hallrest : ∀ x ∈ rest, taskFailed env x.1 x.2 = true := by
        intro x hx
        by_contra habs
        simp only [Bool.not_eq_true] at habs
        have hmem : x ∈ rest.filter (fun si => !taskFailed env si.1 si.2) := by
          simp [List.mem_filter, hx, habs]
        rw [hrest] at hmem
        cases hmem
      simp only [List.foldl_cons]
      rw [if_neg hf]
      rw [minmax_fold_all_failed env op mn mx rest _ hallrest]
      rfl

theorem minmax_single_eligible (env : MinmaxEnv) (op : MMOp)
    (steplist : List (String × String)) (s i : String)
    (helig : steplist.filter (fun si => !taskFailed env si.1 si.2) = [(s, i)]) :
    minmax env op steplist = (some (singleEligibleScore env s i), some (s, i)) := by
  have hfold := minmax_fold_single env op
    (minmaxMinVal env [(s, i)]) (minmaxMaxVal env [(s, i)]) steplist s i helig
  rw [minmaxScore_single] at hfold
  unfold minmax
  rw [helig]
  exact hfold

/-! ### `list_steps` and `_allpaths`

`_allpaths(cfg, flow, step, index)` recursively enumerates the paths from a
node back to the roots, accumulating a forward prefix; the Python recursion
has no fuel but is only run on acyclic flowgraphs, so the embedding takes a
fuel argument and the theorems carry a rank function witnessing acyclicity.
`list_steps` measures each step by the longest path from its index-'0' node
and sorts the steps by that depth; Python's `sorted` is stable, modelled by
stable insertion sort. -/

def allpaths (inp : String → String → List (String × String)) :
    Nat → String → String → List String → List (List String)
  | 0, _, _, _ => []
  | fuel + 1, step, index, path =>
    let inputs := inp step index
    if inputs = [] then [path]
    else
      inputs.foldl
        (fun acc ti => acc ++ allpaths inp fuel ti.1 ti.2 (path ++ [ti.1 ++ ti.2])) []

/-- `depth[step]` in `list_steps`: the longest path length from the step's
index-'0' node to a root. -/
def stepDepth (inp : String → String → List (String × String)) (fuel : Nat)
    (step : String) : Nat :=
  (allpaths inp fuel step "0" []).foldl
    (fun d path => if path.length > d then path.length else d) 0

/-- `list_steps`: steps sorted by ascending depth, ties in insertion order. -/
def list_steps (steps : List String) (inp : String → String → List (String × String))
    (fuel : Nat) : List String :=
  steps.insertionSort fun a b => stepDepth inp fuel a ≤ stepDepth inp fuel b

/-- A rank function decreasing along flowgraph inputs: witnesses that the
graph is acyclic. -/
def RankedGraph (inp : String → String → List (String × String))
    (r : String → String → Nat) : Prop :=
  ∀ s i t ti, (t, ti) ∈ inp s i → r t ti < r s i

theorem foldl_append_acc {α β : Type} (F : α → List β) (l : List α) (init : List β) :
    l.foldl (fun acc t => acc ++ F t) init = init ++ l.foldl (fun acc t => acc ++ F t) [] := by
  induction l generalizing init with
  | nil => simp
  | cons x xs ih =>
    simp only [List.foldl_cons, List.nil_append]
    rw [ih (init ++ F x), ih (F x), List.append_assoc]

theorem mem_foldl_append {α β : Type} (F : α → List β) (l : List α) (t : α) (x : β)
    (ht : t ∈ l) (hx : x ∈ F t) :
    x ∈ l.foldl (fun acc t => acc ++ F t) [] := by
  induction l with
  | nil => cases ht
  | cons y ys ih =>
    simp only [List.foldl_cons, List.nil_append]
    rw [foldl_append_acc]
    rcases List.mem_cons.mp ht with rfl | hmem
    · exact List.mem_append_left _ hx
    · exact List.mem_append_right _ (ih hmem)

theorem allpaths_acc (inp : String → String → List (String × String)) :
    ∀ (fuel : Nat) (s i : String) (path : List String),
      allpaths inp fuel s i path = (allpaths inp fuel s i []).map (path ++ ·) := by
  intro fuel
  induction fuel with
  | zero => intro s i path; rfl
  | succ g ih =>
    intro s i path
    unfold allpaths
    by_cases hin : inp s i = []
    · simp [hin]
    · rw [if_neg hin, if_neg hin]
      induction (inp s i) using List.reverseRecOn with
      | nil => simp
      | append_singleton ts t ihts =>
        rw [List.foldl_append, List.foldl_append]
        simp only [List.foldl_cons, List.foldl_nil]
        rw [ihts, List.map_append]
        congr 1
        simp only [List.nil_append]
        rw [ih t.1 t.2 (path ++ [t.1 ++ t.2]), ih t.1 t.2 [t.1 ++ t.2],
          List.map_map]
        apply List.map_congr_left
        intro p hp
        simp

theorem allpaths_fuel_irrel (inp : String → String → List (String × String))
    (r : String → String → Nat) (hr : RankedGraph inp r) :
    ∀ (n : Nat) (s i : String) (acc : List String) (f1 f2 : Nat),
      r s i = n → r s i < f1 → r s i < f2 →
      allpaths inp f1 s i acc = allpaths inp f2 s i acc := by
  intro n
  induction n using Nat.strong_induction_on with
  | _ n ih =>
    intro s i acc f1 f2 hn h1 h2
    cases f1 with
    | zero => omega
    | succ g1 =>
      cases f2 with
      | zero => omega
      | succ g2 =>
        unfold allpaths
        by_cases hin : inp s i = []
        · simp [hin]
        · rw [if_neg hin, if_neg hin]
          apply List.foldl_ext
          intro acc2 t hmem
          congr 1
          have hlt := hr s i t.1 t.2 hmem
          exact ih (r t.1 t.2) (by omega) t.1 t.2 _ g1 g2 rfl (by omega) (by omega)

theorem allpaths_ne_nil (inp : String → String → List (String × String))
    (r : String → String → Nat) (hr : RankedGraph inp r) :
    ∀ (n : Nat) (s i : String) (acc : List String) (fuel : Nat),
      r s i = n → r s i < fuel → allpaths inp fuel s i acc ≠ [] := by
  intro n
  induction n using Nat.strong_induction_on with
  | _ n ih =>
    intro s i acc fuel hn hf
    cases fuel with
    | zero => omega
    | succ g =>
      unfold allpaths
      by_cases hin : inp s i = []
      · simp [hin]
      · rw [if_neg hin]
        obtain ⟨t, ts, hts⟩ := List.exists_cons_of_ne_nil hin
        rw [hts]
        simp only [List.foldl_cons, List.nil_append]
        rw [foldl_append_acc]
        intro habs
        rcases List.append_eq_nil.mp habs with ⟨hleft, _⟩
        have hlt := hr s i t.1 t.2 (by rw [hts]; simp)
        exact ih (r t.1 t.2) (by omega) t.1 t.2 _ g rfl (by omega) hleft

theorem foldl_maxlen_ge_init (l : List (List String)) (a : Nat) :
    a ≤ l.foldl (fun d path => if path.length > d then path.length else d) a := by
  induction l generalizing a with
  | nil => simp
  | cons p ps ih =>
    simp only [List.foldl_cons]
    calc a ≤ (if p.length > a then p.length else a) := by split <;> omega
    _ ≤ _ := ih _

theorem foldl_maxlen_ge_mem (l : List (List String)) (a : Nat) (p : List String)
    (hp : p ∈ l) :
    p.length ≤ l.foldl (fun d path => if path.length > d then path.length else d) a := by
  induction l generalizing a with
  | nil => cases hp
  | cons q qs ih =>
    simp only [List.foldl_cons]
    rcases List.mem_cons.mp hp with rfl | hmem
    · calc p.length ≤ (if p.length > a then p.length else a) := by split <;> omega
      _ ≤ _ := foldl_maxlen_ge_init _ _
    · exact ih _ hmem

theorem foldl_maxlen_cases (l : List (List String)) :
    ∀ a : Nat, l.foldl (fun d path => if path.length > d then path.length else d) a = a ∨
      ∃ p ∈ l, l.foldl (fun d path => if path.length > d then path.length else d) a
        = p.length := by
  induction l with
  | nil => intro a; left; rfl
  | cons q qs ih =>
    intro a
    simp only [List.foldl_cons]
    rcases ih (if q.length > a then q.length else a) with heq | ⟨p, hp, heq⟩
    · rw [heq]
      by_cases h : q.length > a
      · right
        exact ⟨q, by simp, by rw [if_pos h]⟩
      · left
        rw [if_neg h]
    · right
      exact ⟨p, by simp [hp], heq⟩

theorem foldl_maxlen_attained (l : List (List String)) (hne : l ≠ []) :
    ∃ p ∈ l, l.foldl (fun d path => if path.length > d then path.length else d) 0
      ≤ p.length := by
  rcases foldl_maxlen_cases l 0 with heq | ⟨p, hp, heq⟩
  · obtain ⟨p, ps, rfl⟩ := List.exists_cons_of_ne_nil hne
    exact ⟨p, by simp, by omega⟩
  · exact ⟨p, hp, by omega⟩

theorem stepDepth_lt_of_edge (inp : String → String → List (String × String))
    (r : String → String → Nat) (hr : RankedGraph inp r) (fuel : Nat)
    (hfuel : ∀ s i, r s i < fuel)
    (t h : String) (hedge : (t, "0") ∈ inp h "0") :
    stepDepth inp fuel t < stepDepth inp fuel h := by
  cases fuel with
  | zero => exact absurd (hfuel h "0") (by omega)
  | succ G =>
    have hrt : r t "0" < r h "0" := hr h "0" t "0" hedge
    have hAt_ne : allpaths inp (G + 1) t "0" [] ≠ [] :=
      allpaths_ne_nil inp r hr (r t "0") t "0" [] (G + 1) rfl (hfuel t "0")
    obtain ⟨p0, hp0_mem, hp0_len⟩ := foldl_maxlen_attained _ hAt_ne
    have hGt : allpaths inp G t "0" [] = allpaths inp (G + 1) t "0" [] :=
      allpaths_fuel_irrel inp r hr (r t "0") t "0" [] G (G + 1) rfl
        (by have := hfuel h "0"; omega) (hfuel t "0")
    have hin_ne : inp h "0" ≠ [] := by
      intro habs
      rw [habs] at hedge
      cases hedge
    have hmem : ((t ++ "0") :: p0) ∈ allpaths inp (G + 1) h "0" [] := by
      unfold allpaths
      rw [if_neg hin_ne]
      apply mem_foldl_append _ _ (t, "0") _ hedge
      simp only [List.nil_append]
      rw [allpaths_acc inp G t "0" [t ++ "0"], hGt]
      exact List.mem_map_of_mem _ hp0_mem
    have hle : ((t ++ "0") :: p0).length
        ≤ stepDepth inp (G + 1) h := foldl_maxlen_ge_mem _ _ _ hmem
    simp only [List.length_cons] at hle
    have hd_t : stepDepth inp (G + 1) t ≤ p0.length := hp0_len
    omega

theorem sorted_position (key : String → Nat) (l : List String) (hnodup : l.Nodup)
    (a b : String) (ha : a ∈ l) (hb : b ∈ l) (hk : key a < key b) :
    (l.insertionSort fun x y => key x ≤ key y).indexOf a
      < (l.insertionSort fun x y => key x ≤ key y).indexOf b := by
  haveI : IsTotal String fun x y => key x ≤ key y := ⟨fun x y => le_total _ _⟩
  haveI : IsTrans String fun x y => key x ≤ key y := ⟨fun x y z h1 h2 => le_trans h1 h2⟩
  have hsorted := List.sorted_insertionSort (fun x y => key x ≤ key y) l
  have hperm := List.perm_insertionSort (fun x y => key x ≤ key y) l
  have hnodup_out : (l.insertionSort fun x y => key x ≤ key y).Nodup :=
    hperm.nodup_iff.mpr hnodup
  have hab : a ≠ b := fun habs => by rw [habs] at hk; omega
  have ha_out : a ∈ l.insertionSort fun x y => key x ≤ key y :=
    (List.mem_insertionSort _).mpr ha
  have hb_out : b ∈ l.insertionSort fun x y => key x ≤ key y :=
    (List.mem_insertionSort _).mpr hb
  have hia := List.indexOf_lt_length.mpr ha_out
  have hib := List.indexOf_lt_length.mpr hb_out
  have hget_a := List.indexOf_get hia
  have hget_b := List.indexOf_get hib
  rcases Nat.lt_trichotomy ((l.insertionSort fun x y => key x ≤ key y).indexOf a)
      ((l.insertionSort fun x y => key x ≤ key y).indexOf b) with h | h | h
  · exact h
  · exfalso
    apply hab
    rw [← hget_a, ← hget_b]
    congr 1
    exact Fin.ext h
  · exfalso
    have := List.Sorted.rel_get_of_lt hsorted
      (show (⟨_, hib⟩ : Fin _) < ⟨_, hia⟩ from h)
    rw [hget_a, hget_b] at this
    omega

/-! ### `_gather_outputs` -/

/-- The environment `_gather_outputs` reads: the flowgraph inputs, each
node's bound tool, the tool's declared outputs `eda/<tool>/output/<step>/<index>`
(`none` when the keypath is not valid), and the staged filenames collected
for the `import` step. -/
structure GatherEnv where
  inputsOf : String → String → List (String × String)
  toolOf : String → String → String
  edaOutputs : String → String → String → Option (List String)
  collectImports : Finset String

/-- `self.builtin` from `Chip.__init__`. -/
def builtins : List String := ["minimum", "maximum", "nop", "mux", "join", "verify"]

/-- `Chip._gather_outputs`, with fuel for the recursion over the acyclic
flowgraph. -/
def gatherOutputs (env : GatherEnv) : Nat → String → String → Finset String
  | 0, _, _ => ∅
  | fuel + 1, step, index =>
    let tool := env.toolOf step index
    let outputs :=
      if tool ∈ builtins then
        let in_task_outputs := (env.inputsOf step index).map fun t =>
          gatherOutputs env fuel t.1 t.2
        if tool = "minimum" ∨ tool = "maximum" then
          match in_task_outputs with
          | [] => ∅
          | o :: rest => rest.foldl (· ∩ ·) o
        else if tool = "join" ∨ tool = "nop" then
          match in_task_outputs with
          | [] => ∅
          | o :: rest => rest.foldl (· ∪ ·) o
        else ∅        -- mux/verify: logged "not yet implemented", outputs empty
      else
        match env.edaOutputs tool step index with
        | some outs => outs.toFinset
        | none => ∅   -- `self.valid(...)` false: outputs = set()
    if step = "import" then outputs ∪ env.collectImports else outputs

theorem gather_fuel_irrel (env : GatherEnv) (r : String → String → Nat)
    (hr : RankedGraph env.inputsOf r) :
    ∀ (n : Nat) (s i : String) (f1 f2 : Nat), r s i = n → r s i < f1 → r s i < f2 →
      gatherOutputs env f1 s i = gatherOutputs env f2 s i := by
  intro n
  induction n using Nat.strong_induction_on with
  | _ n ih =>
    intro s i f1 f2 hn h1 h2
    cases f1 with
    | zero => omega
    | succ g1 =>
      cases f2 with
      | zero => omega
      | succ g2 =>
        unfold gatherOutputs
        have hmap : ((env.inputsOf s i).map fun t => gatherOutputs env g1 t.1 t.2)
            = (env.inputsOf s i).map fun t => gatherOutputs env g2 t.1 t.2 := by
          apply List.map_congr_left
          intro t hmem
          have hlt := hr s i t.1 t.2 hmem
          exact ih (r t.1 t.2) (by omega) t.1 t.2 g1 g2 rfl (by omega) (by omega)
        rw [hmap]

theorem mem_foldl_union (x : String) (o : Finset String) (rest : List (Finset String)) :
    x ∈ rest.foldl (· ∪ ·) o ↔ x ∈ o ∨ ∃ s ∈ rest, x ∈ s := by
  induction rest generalizing o with
  | nil => simp
  | cons s ss ih =>
    simp only [List.foldl_cons, ih, Finset.mem_union]
    constructor
    · rintro ((h | h) | ⟨s2, hs2, hx⟩)
      · exact Or.inl h
      · exact Or.inr ⟨s, by simp, h⟩
      · exact Or.inr ⟨s2, by simp [hs2], hx⟩
    · rintro (h | ⟨s2, hs2, hx⟩)
      · exact Or.inl (Or.inl h)
      · rcases List.mem_cons.mp hs2 with rfl | hs3
        · exact Or.inl (Or.inr hx)
        · exact Or.inr ⟨s2, hs3, hx⟩

theorem mem_foldl_inter (x : String) (o : Finset String) (rest : List (Finset String)) :
    x ∈ rest.foldl (· ∩ ·) o ↔ x ∈ o ∧ ∀ s ∈ rest, x ∈ s := by
  induction rest generalizing o with
  | nil => simp
  | cons s ss ih =>
    simp only [List.foldl_cons, ih, Finset.mem_inter]
    constructor
    · rintro ⟨⟨h1, h2⟩, h3⟩
      refine ⟨h1, ?_⟩
      intro s2 hs2
      rcases List.mem_cons.mp hs2 with rfl | hs3
      · exact h2
      · exact h3 s2 hs3
    · rintro ⟨h1, h2⟩
      exact ⟨⟨h1, h2 s (by simp)⟩, fun s2 hs2 => h2 s2 (by simp [hs2])⟩

theorem gather_union_mem (env : GatherEnv) (r : String → String → Nat)
    (hr : RankedGraph env.inputsOf r) (fuel : Nat) (hfuel : ∀ s i, r s i < fuel)
    (s i : String)
    (htool : env.toolOf s i = "join" ∨ env.toolOf s i = "nop")
    (hin : env.inputsOf s i ≠ []) (x : String) :
    x ∈ gatherOutputs env fuel s i ↔
      ((∃ t ∈ env.inputsOf s i, x ∈ gatherOutputs env fuel t.1 t.2)
        ∨ (s = "import" ∧ x ∈ env.collectImports)) := by
  cases fuel with
  | zero => exact absurd (hfuel s i) (by omega)
  | succ G =>
    have hmap : ((env.inputsOf s i).map fun t => gatherOutputs env G t.1 t.2)
        = (env.inputsOf s i).map fun t => gatherOutputs env (G + 1) t.1 t.2 := by
      apply List.map_congr_left
      intro t hmem
      have hlt := hr s i t.1 t.2 hmem
      have hb := hfuel s i
      exact gather_fuel_irrel env r hr (r t.1 t.2) t.1 t.2 G (G + 1) rfl (by omega)
        (by omega)
    have hbuiltin : env.toolOf s i ∈ builtins := by
      rcases htool with h | h <;> rw [h] <;> decide
    have hnotmm : ¬(env.toolOf s i = "minimum" ∨ env.toolOf s i = "maximum") := by
      rcases htool with h | h <;> rw [h] <;> decide
    have hjn : env.toolOf s i = "join" ∨ env.toolOf s i = "nop" := htool
    unfold gatherOutputs
    simp only [if_pos hbuiltin, if_neg hnotmm, if_pos hjn, hmap]
    cases hM : (env.inputsOf s i).map fun t => gatherOutputs env (G + 1) t.1 t.2 with
    | nil => exact absurd (List.map_eq_nil_iff.mp hM) hin
    | cons o rest =>
      have hsets : ∀ y, y ∈ rest.foldl (· ∪ ·) o ↔
          ∃ t ∈ env.inputsOf s i, y ∈ gatherOutputs env (G + 1) t.1 t.2 := by
        intro y
        rw [mem_foldl_union]
        constructor
        · rintro (h | ⟨s2, hs2, hy⟩)
          · have : o ∈ (env.inputsOf s i).map fun t => gatherOutputs env (G + 1) t.1 t.2 := by
              rw [hM]; simp
            obtain ⟨t, ht, hto⟩ := List.mem_map.mp this
            exact ⟨t, ht, by rw [hto]; exact h⟩
          · have : s2 ∈ (env.inputsOf s i).map fun t => gatherOutputs env (G + 1) t.1 t.2 := by
              rw [hM]; simp [hs2]
            obtain ⟨t, ht, hto⟩ := List.mem_map.mp this
            exact ⟨t, ht, by rw [hto]; exact hy⟩
        · rintro ⟨t, ht, hy⟩
          have : gatherOutputs env (G + 1) t.1 t.2 ∈ o :: rest := by
            rw [← hM]
            exact List.mem_map_of_mem _ ht
          rcases List.mem_cons.mp this with heq | hmem2
          · exact Or.inl (heq ▸ hy)
          · exact Or.inr ⟨_, hmem2, hy⟩
      by_cases himp : s = "import"
      · rw [if_pos himp]
        rw [Finset.mem_union, hsets]
        constructor
        · rintro (h | h)
          · exact Or.inl h
          · exact Or.inr ⟨himp, h⟩
        · rintro (h | ⟨_, h⟩)
          · exact Or.inl h
          · exact Or.inr h
      · rw [if_neg himp, hsets]
        constructor
        · exact Or.inl
        · rintro (h | ⟨habs, _⟩)
          · exact h
          · exact absurd habs himp

theorem gather_inter_mem (env : GatherEnv) (r : String → String → Nat)
    (hr : RankedGraph env.inputsOf r) (fuel : Nat) (hfuel : ∀ s i, r s i < fuel)
    (s i : String)
    (htool : env.toolOf s i = "minimum" ∨ env.toolOf s i = "maximum")
    (hin : env.inputsOf s i ≠ []) (x : String) :
    x ∈ gatherOutputs env fuel s i ↔
      ((∀ t ∈ env.inputsOf s i, x ∈ gatherOutputs env fuel t.1 t.2)
        ∨ (s = "import" ∧ x ∈ env.collectImports)) := by
  cases fuel with
  | zero => exact absurd (hfuel s i) (by omega)
  | succ G =>
    have hmap : ((env.inputsOf s i).map fun t => gatherOutputs env G t.1 t.2)
        = (env.inputsOf s i).map fun t => gatherOutputs env (G + 1) t.1 t.2 := by
      apply List.map_congr_left
      intro t hmem
      have hlt := hr s i t.1 t.2 hmem
      have hb := hfuel s i
      exact gather_fuel_irrel env r hr (r t.1 t.2) t.1 t.2 G (G + 1) rfl (by omega)
        (by omega)
    have hbuiltin : env.toolOf s i ∈ builtins := by
      rcases htool with h | h <;> rw [h] <;> decide
    unfold gatherOutputs
    simp only [if_pos hbuiltin, if_pos htool, hmap]
    cases hM : (env.inputsOf s i).map fun t => gatherOutputs env (G + 1) t.1 t.2 with
    | nil => exact absurd (List.map_eq_nil_iff.mp hM) hin
    | cons o rest =>
      have hsets : ∀ y, y ∈ rest.foldl (· ∩ ·) o ↔
          ∀ t ∈ env.inputsOf s i, y ∈ gatherOutputs env (G + 1) t.1 t.2 := by
        intro y
        rw [mem_foldl_inter]
        constructor
        · rintro ⟨ho, hrest⟩ t ht
          have : gatherOutputs env (G + 1) t.1 t.2 ∈ o :: rest := by
            rw [← hM]
            exact List.mem_map_of_mem _ ht
          rcases List.mem_cons.mp this with heq | hmem2
          · exact heq ▸ ho
          · exact hrest _ hmem2
        · intro hall
          constructor
          · have : o ∈ (env.inputsOf s i).map fun t => gatherOutputs env (G + 1) t.1 t.2 := by
              rw [hM]; simp
            obtain ⟨t, ht, hto⟩ := List.mem_map.mp this
            rw [← hto]
            exact hall t ht
          · intro s2 hs2
            have : s2 ∈ (env.inputsOf s i).map fun t => gatherOutputs env (G + 1) t.1 t.2 := by
              rw [hM]; simp [hs2]
            obtain ⟨t, ht, hto⟩ := List.mem_map.mp this
            rw [← hto]
            exact hall t ht
      by_cases himp : s = "import"
      · rw [if_pos himp]
        rw [Finset.mem_union, hsets]
        constructor
        · rintro (h | h)
          · exact Or.inl h
          · exact Or.inr ⟨himp, h⟩
        · rintro (h | ⟨_, h⟩)
          · exact Or.inl h
          · exact Or.inr h
      · rw [if_neg himp, hsets]
        constructor
        · exact Or.inl
        · rintro (h | ⟨habs, _⟩)
          · exact h
          · exact absurd habs himp

/-! ### Characterisation of `_allkeys` -/

/-- Does the keypath lead to a parameter leaf (descending through actual
keys only, no wildcard)? -/
def isLeafAt : Cfg → List String → Bool
  | .leaf _, [] => true
  | .node _, [] => false
  | .leaf _, _ :: _ => false
  | .node cs, k :: rest =>
    match childGet cs k with
    | some c => isLeafAt c rest
    | none => false

/-- Well-formedness of the nested dict: keys are unique at every level
(as in a Python dict). -/
def cfgWFList : List (String × Cfg) → Bool
  | [] => true
  | (k, c) :: rest =>
    !((rest.map Prod.fst).contains k) &&
    (match c with
     | .leaf _ => true
     | .node cs => cfgWFList cs) &&
    cfgWFList rest

theorem childGet_some_mem (cs : List (String × Cfg)) (key : String) (c : Cfg)
    (h : childGet cs key = some c) : key ∈ cs.map Prod.fst := by
  induction cs with
  | nil => cases h
  | cons hd rest ih =>
    obtain ⟨k0, c0⟩ := hd
    simp only [childGet] at h
    by_cases hk : k0 = key
    · simp [hk]
    · rw [if_neg hk] at h
      simp [ih h]

theorem cfgWFList_parts (k : String) (c : Cfg) (rest : List (String × Cfg))
    (h : cfgWFList ((k, c) :: rest) = true) :
    k ∉ rest.map Prod.fst ∧ cfgWFList rest = true := by
  unfold cfgWFList at h
  simp only [Bool.and_eq_true, Bool.not_eq_true'] at h
  obtain ⟨⟨h1, _⟩, h3⟩ := h
  exact ⟨by simpa using h1, h3⟩

theorem cfgWFList_child_node (k : String) (cs rest : List (String × Cfg))
    (h : cfgWFList ((k, Cfg.node cs) :: rest) = true) : cfgWFList cs = true := by
  unfold cfgWFList at h
  simp only [Bool.and_eq_true, Bool.not_eq_true'] at h
  exact h.1.2

theorem mem_allkeysList (cs : List (String × Cfg)) (keys : List String)
    (hwf : cfgWFList cs = true) (p : List String) :
    p ∈ allkeysList cs keys ↔ ∃ q, p = keys ++ q ∧ isLeafAt (.node cs) q = true := by
  induction cs, keys using allkeysList.induct with
  | case1 keys =>
    simp only [allkeysList, List.not_mem_nil, false_iff]
    rintro ⟨q, hp, hleaf⟩
    cases q with
    | nil => simp [isLeafAt] at hleaf
    | cons k rest => simp [isLeafAt, childGet] at hleaf
  | case2 a b rest keys ih2 ih1 =>
    obtain ⟨hnotin, hwfrest⟩ := cfgWFList_parts a b rest hwf
    have hlift : ∀ q, isLeafAt (Cfg.node rest) q = true →
        isLeafAt (Cfg.node ((a, b) :: rest)) q = true := by
      intro q hq
      cases q with
      | nil => simp [isLeafAt] at hq
      | cons k2 rest2 =>
        simp only [isLeafAt] at hq ⊢
        cases hg : childGet rest k2 with
        | none => rw [hg] at hq; cases hq
        | some c2 =>
          rw [hg] at hq
          have hk2 : k2 ∈ rest.map Prod.fst := childGet_some_mem rest k2 c2 hg
          have hne : a ≠ k2 := fun habs => hnotin (habs ▸ hk2)
          simp only [childGet, if_neg hne, hg]
          exact hq
    have hunlift : ∀ q, isLeafAt (Cfg.node ((a, b) :: rest)) q = true →
        (q = [a] ∧ ∃ pf, b = Cfg.leaf pf)
        ∨ (∃ rest2 cs2, q = a :: rest2 ∧ b = Cfg.node cs2 ∧
            isLeafAt (Cfg.node cs2) rest2 = true)
        ∨ isLeafAt (Cfg.node rest) q = true := by
      intro q hq
      cases q with
      | nil => simp [isLeafAt] at hq
      | cons k2 rest2 =>
        simp only [isLeafAt, childGet] at hq
        by_cases hne : a = k2
        · rw [if_pos hne] at hq
          subst hne
          cases b with
          | leaf pf =>
            cases rest2 with
            | nil => exact Or.inl ⟨rfl, pf, rfl⟩
            | cons x xs => simp [isLeafAt] at hq
          | node cs2 =>
            exact Or.inr (Or.inl ⟨rest2, cs2, rfl, rfl, hq⟩)
        · rw [if_neg hne] at hq
          right
          right
          simp only [isLeafAt]
          exact hq
    cases b with
    | leaf pf =>
      simp only [allkeysList, List.singleton_append, List.mem_cons]
      constructor
      · rintro (rfl | hmem)
        · refine ⟨[a], rfl, ?_⟩
          simp [isLeafAt, childGet]
        · obtain ⟨q, hp, hleaf⟩ := (ih1 hwfrest).mp hmem
          exact ⟨q, hp, hlift q hleaf⟩
      · rintro ⟨q, hp, hleaf⟩
        rcases hunlift q hleaf with ⟨rfl, _⟩ | ⟨rest2, cs2, _, habs, _⟩ | hrest
        · exact Or.inl hp
        · cases habs
        · exact Or.inr ((ih1 hwfrest).mpr ⟨q, hp, hrest⟩)
    | node cs2 =>
      simp only [allkeysList, List.mem_append]
      constructor
      · rintro (hmem | hmem)
        · obtain ⟨q, hp, hleaf⟩ := (ih2 (cfgWFList_child_node a cs2 rest hwf)).mp hmem
          refine ⟨a :: q, by simp [hp], ?_⟩
          simp only [isLeafAt, childGet, if_pos rfl]
          exact hleaf
        · obtain ⟨q, hp, hleaf⟩ := (ih1 hwfrest).mp hmem
          exact ⟨q, hp, hlift q hleaf⟩
      · rintro ⟨q, hp, hleaf⟩
        rcases hunlift q hleaf with ⟨rfl, pf, habs⟩ | ⟨rest2, cs3, rfl, hbeq, hleaf2⟩ | hrest
        · cases habs
        · left
          apply (ih2 (cfgWFList_child_node a cs2 rest hwf)).mpr
          have hcs : cs2 = cs3 := by injection hbeq
          subst hcs
          exact ⟨rest2, by simp [hp], hleaf2⟩
        · exact Or.inr ((ih1 hwfrest).mpr ⟨q, hp, hrest⟩)

/-! ## Claim theorems -/

/-- C1: Schema set/get round-trip.  For every keypath that resolves to a
parameter (directly or through `default` templates), every value passing the
parameter's type check, and every supported parameter type, `set` with
`clobber=true` succeeds without raising the error flag, and a subsequent
`get` returns the value modulo the declared coercion captured by
`expectedGet`: ints and floats come back from their stored string form,
booleans are stored as `'true'`/`'false'` and returned as booleans, tuples
are parsed back from their `(a, b)` form, scalars are auto-stringified, and
scalars are auto-wrapped for list parameters. -/
theorem C1_set_get_roundtrip (cfg : Cfg) (path : List String) (v : PyVal) (p : Param)
    (r : PyVal)
    (hres : resolveParam cfg path = some p)
    (hlock : p.lock ≠ "true")
    (hsupp : supportedType p.type = true)
    (htc : typeCheck p.type v = true)
    (hexp : expectedGet p.type v = some r) :
    ∃ cfg2, searchSA .set true cfg path v = some (cfg2, false) ∧
      searchGet cfg2 path = some (r, cfg2, false) :=
  set_get_roundtrip cfg path v p r hres hlock hsupp htc hexp

def pDesign : Param := { type := "str", value := .pynone, defvalue := .pynone, lock := "false" }

def cfgC1 : Cfg := .node [("design", .leaf pDesign)]

theorem C1_witness : ∃ cfg2,
    searchSA .set true cfgC1 ["design"] (.str "top") = some (cfg2, false) ∧
    searchGet cfg2 ["design"] = some (.str "top", cfg2, false) :=
  C1_set_get_roundtrip cfgC1 ["design"] (.str "top") pDesign (.str "top")
    rfl (by decide) (by decide) (by decide) rfl

/-- C7: `add` semantics.  For a list-typed parameter holding elements `vs`
that `get` reads back as `olds`, `add(k, w)` appends the stringified `w` and
a subsequent `get` returns `olds ++ [w2]` with `w2` the coerced element;
applying `add` to a scalar parameter raises the object error flag and leaves
the parameter unchanged. -/
theorem C7_add_semantics :
    (∀ (cfg : Cfg) (path : List String) (w : PyVal) (p : Param)
      (vs olds : List PyVal) (w2 : PyVal),
      resolveParam cfg path = some p →
      p.lock ≠ "true" →
      isListType p.type = true →
      p.value = .list vs →
      isPyList w = false →
      typeCheck p.type w = true →
      omap (coerceListItem (stripBrackets p.type)) vs = some olds →
      coerceListItem (stripBrackets p.type) (.str (pyStr w)) = some w2 →
      ∃ cfg2, searchSA .add true cfg path w = some (cfg2, false) ∧
        searchGet cfg2 path = some (.list (olds ++ [w2]), cfg2, false)) ∧
    (∀ (cfg : Cfg) (path : List String) (w : PyVal) (p : Param),
      resolveParam cfg path = some p →
      p.lock ≠ "true" →
      isListType p.type = false →
      ∃ cfg2, searchSA .add true cfg path w = some (cfg2, true) ∧
        resolveParam cfg2 path = some p) :=
  ⟨fun cfg path w p vs olds w2 h1 h2 h3 h4 h5 h6 h7 h8 =>
      add_list_roundtrip cfg path w p vs olds w2 h1 h2 h3 h4 h5 h6 h7 h8,
   fun cfg path w p h1 h2 h3 => add_scalar_error cfg path w p h1 h2 h3⟩

def pSource : Param :=
  { type := "[file]", value := .list [], defvalue := .list [], lock := "false" }

def cfgC7 : Cfg := .node [("design", .leaf pDesign), ("source", .leaf pSource)]

theorem C7_witness :
    (∃ cfg2, searchSA .add true cfgC7 ["source"] (.str "hello.v") = some (cfg2, false) ∧
      searchGet cfg2 ["source"] = some (.list [.str "hello.v"], cfg2, false)) ∧
    (∃ cfg2, searchSA .add true cfgC7 ["design"] (.str "x") = some (cfg2, true) ∧
      resolveParam cfg2 ["design"] = some pDesign) :=
  ⟨C7_add_semantics.1 cfgC7 ["source"] (.str "hello.v") pSource [] [] (.str "hello.v")
      rfl (by decide) (by decide) rfl (by decide) (by decide) rfl rfl,
   C7_add_semantics.2 cfgC7 ["design"] (.str "x") pDesign rfl (by decide) (by decide)⟩

/-- C9: the object error flag is a one-way latch.  `Chip.__init__` starts it
at 0, and none of the embedded schema operations (`set`, `add`, `get`,
`getkeys`) ever moves it from 1 back to 0: each error site only executes
`self.error = 1`. -/
theorem C9_error_latch :
    (∀ cfg0, (chipInit cfg0).error = 0) ∧
    (∀ st path v clobber st2, st.error = 1 →
      chipSet st path v clobber = some st2 → st2.error = 1) ∧
    (∀ st path v st2, st.error = 1 →
      chipAdd st path v = some st2 → st2.error = 1) ∧
    (∀ st path r2, st.error = 1 →
      chipGet st path = some r2 → r2.2.error = 1) ∧
    (∀ st path r2, st.error = 1 →
      chipGetkeys st path = some r2 → r2.2.error = 1) := by
  refine ⟨fun _ => rfl, ?_, ?_, ?_, ?_⟩
  · intro st path v clobber st2 h1 h2
    unfold chipSet at h2
    cases hs : searchSA .set clobber st.cfg path v with
    | none => rw [hs] at h2; cases h2
    | some r =>
      rw [hs] at h2
      simp only [Option.map_some', Option.some.injEq] at h2
      subst h2
      by_cases hr : r.2 <;> simp [hr, h1]
  · intro st path v st2 h1 h2
    unfold chipAdd at h2
    cases hs : searchSA .add true st.cfg path v with
    | none => rw [hs] at h2; cases h2
    | some r =>
      rw [hs] at h2
      simp only [Option.map_some', Option.some.injEq] at h2
      subst h2
      by_cases hr : r.2 <;> simp [hr, h1]
  · intro st path r2 h1 h2
    unfold chipGet at h2
    cases hs : searchGet st.cfg path with
    | none => rw [hs] at h2; cases h2
    | some r =>
      rw [hs] at h2
      simp only [Option.map_some', Option.some.injEq] at h2
      subst h2
      by_cases hr : r.2.2 <;> simp [hr, h1]
  · intro st path r2 h1 h2
    unfold chipGetkeys at h2
    cases hs : getkeysAt st.cfg path with
    | none => rw [hs] at h2; cases h2
    | some r =>
      rw [hs] at h2
      simp only [Option.map_some', Option.some.injEq] at h2
      subst h2
      by_cases hr : r.2.2 <;> simp [hr, h1]

theorem C9_witness : (chipInit cfgC1).error = 0 ∧
    ∃ st2, chipSet { cfg := cfgC1, error := 1 } ["design"] (.str "top") true = some st2 ∧
      st2.error = 1 :=
  ⟨C9_error_latch.1 cfgC1,
   ⟨_, rfl, C9_error_latch.2.1 { cfg := cfgC1, error := 1 } ["design"]
     (.str "top") true _ rfl rfl⟩⟩

/-- C10: empty-value sentinels and `clobber=False`.  The sentinel list in
`_search` treats exactly `None`, `'null'`, the empty list and `'false'` as
"empty"; a `set` with `clobber=False` writes the coerced value when the
parameter currently holds a sentinel and is a silent no-op otherwise. -/
theorem C10_clobber_sentinels :
    (∀ v : PyVal, isEmptySentinel v = true ↔
      (v = .pynone ∨ v = .str "null" ∨ v = .list [] ∨ v = .str "false")) ∧
    (∀ (cfg : Cfg) (path : List String) (v : PyVal) (p : Param) (stored : PyVal),
      resolveParam cfg path = some p →
      p.lock ≠ "true" →
      typeCheck p.type v = true →
      isEmptySentinel p.value = true →
      setStoreVal (isListType p.type) (typeHasParen p.type)
        (if p.type = "bool" then boolToStrVal v else v) = some stored →
      ∃ cfg2, searchSA .set false cfg path v = some (cfg2, false) ∧
        resolveParam cfg2 path = some { p with value := stored }) ∧
    (∀ (cfg : Cfg) (path : List String) (v : PyVal) (p : Param),
      resolveParam cfg path = some p →
      p.lock ≠ "true" →
      typeCheck p.type v = true →
      isEmptySentinel p.value = false →
      ∃ cfg2, searchSA .set false cfg path v = some (cfg2, false) ∧
        resolveParam cfg2 path = some p) := by
  refine ⟨?_, setF_write_roundtrip, setF_skip_noop⟩
  intro v
  cases v with
  | pynone => simp [isEmptySentinel]
  | str s =>
    simp only [isEmptySentinel]
    constructor
    · intro h
      by_cases h1 : s = "null"
      · exact Or.inr (Or.inl (by rw [h1]))
      · by_cases h2 : s = "false"
        · exact Or.inr (Or.inr (Or.inr (by rw [h2])))
        · simp [h1, h2] at h
    · rintro (h | h | h | h) <;> (cases h <;> decide)
  | bool b => simp [isEmptySentinel]
  | int n => simp [isEmptySentinel]
  | rat q => simp [isEmptySentinel]
  | tup xs =>
    simp only [isEmptySentinel]
    constructor
    · intro h; cases xs <;> simp at h
    · rintro (h | h | h | h) <;> cases h
  | list xs =>
    simp only [isEmptySentinel]
    cases xs with
    | nil => simp
    | cons x rest =>
      constructor
      · intro h; simp at h
      · rintro (h | h | h | h) <;> cases h

def pBool : Param :=
  { type := "bool", value := .str "false", defvalue := .pynone, lock := "false" }

def cfgC10 : Cfg := .node [("b", .leaf pBool)]

theorem C10_witness :
    ∃ cfg2, searchSA .set false cfgC10 ["b"] (.bool true) = some (cfg2, false) ∧
      resolveParam cfg2 ["b"] = some { pBool with value := .str "true" } :=
  C10_clobber_sentinels.2.1 cfgC10 ["b"] (.bool true) pBool (.str "true")
    rfl (by decide) (by decide) (by decide) rfl

/-- Eligibility environment for the S5 scenario: metric `errors` with
`goal=0`, `real=3` on `('place','0')`; `setupslack` is the weighted metric. -/
def envC2 : MinmaxEnv where
  flowError := fun _ _ => 0
  metricKeys := fun _ _ => ["setupslack", "errors"]
  hasGoal := fun s i m => decide (s = "place" ∧ i = "0" ∧ m = "errors")
  goal := fun _ _ _ => 0
  real := fun _ i m => if i = "0" then (if m = "setupslack" then -(1/10) else 3)
    else (if m = "setupslack" then -(1/20) else 0)
  weightKeys := fun _ _ => ["setupslack"]
  weight := fun _ _ m => if m = "setupslack" then some 1 else none

/-- C2: `_minmax` eligibility filtering.  An input whose error bit is set, or
that violates some goal-equipped metric (`abs(real) > goal`), is never
returned as the winner; concretely, with `metric/errors/goal=0` and
`real=3` on `('place','0')`, `minimum` over `('place','0'),('place','1')`
selects `('place','1')`. -/
theorem C2_minmax_eligibility :
    (∀ (env : MinmaxEnv) (op : MMOp) (steplist : List (String × String)) (s i : String),
      taskFailed env s i = true → (minmax env op steplist).2 ≠ some (s, i)) ∧
    (taskFailed envC2 "place" "0" = true ∧
      minmax envC2 MMOp.minimum [("place", "0"), ("place", "1")]
        = (some 0, some ("place", "1"))) :=
  ⟨fun env op steplist s i hfail => minmax_failed_not_winner env op steplist s i hfail,
   by constructor
      · norm_num +decide [taskFailed, envC2]
      · norm_num +decide [minmax, taskFailed, minmaxMinVal, minmaxMaxVal, minmaxScore, envC2]⟩

theorem C2_witness :
    (minmax envC2 MMOp.minimum [("place", "0"), ("place", "1")]).2 ≠ some ("place", "0") :=
  C2_minmax_eligibility.1 envC2 MMOp.minimum [("place", "0"), ("place", "1")] "place" "0"
    (by norm_num +decide [taskFailed, envC2])

/-- C3: with per-node error bits bounded by 1, the halt accumulator computed
after the per-step wait loop is non-zero iff some step has its error bit set
on EVERY index of that step (`index_error` starts at 1 and is AND-ed across
the step's indices). -/
theorem C3_halt_condition (steplist : List String) (indexlist : String → List String)
    (error : String → Nat) (hb : ∀ n, error n ≤ 1) :
    runHalt steplist indexlist error ≠ 0 ↔
      ∃ step ∈ steplist, ∀ index ∈ indexlist step, error (step ++ index) = 1 :=
  runHalt_ne_zero_iff steplist indexlist error hb

theorem C3_witness :
    runHalt ["place"] (fun _ => ["0"]) (fun _ => 1) ≠ 0 ↔
      ∃ step ∈ ["place"], ∀ index ∈ (fun _ => ["0"] : String → List String) step,
        (fun _ => 1 : String → Nat) (step ++ index) = 1 :=
  C3_halt_condition ["place"] (fun _ => ["0"]) (fun _ => 1) (fun _ => Nat.le_refl 1)

theorem C3_counterexample :
    ((fun n => if n = "place0" then 1 else 0 : String → Nat) ("place" ++ "0") = 1) ∧
    runHalt ["place"] (fun _ => ["0", "1"])
      (fun n => if n = "place0" then 1 else 0) = 0 := by
  decide

theorem singleEligibleScore_nonpos (env : MinmaxEnv) (s i : String)
    (hreal : ∀ m ∈ env.weightKeys s i, env.real s i m ≤ 0) :
    singleEligibleScore env s i = 0 := by
  unfold singleEligibleScore
  have hgen : ∀ (l : List String), (∀ m ∈ l, env.real s i m ≤ 0) → ∀ a : ℚ,
      l.foldl (fun score metric =>
        match env.weight s i metric with
        | none => score
        | some w => if w = 0 then score
            else score + max (env.real s i metric) 0 * w) a = a := by
    intro l
    induction l with
    | nil => intro _ a; rfl
    | cons m rest ih =>
      intro hle a
      simp only [List.foldl_cons]
      have hm : max (env.real s i m) 0 = 0 := max_eq_right (hle m (by simp))
      have hstep : (match env.weight s i m with
          | none => a
          | some w => if w = 0 then a
              else a + max (env.real s i m) 0 * w) = a := by
        cases env.weight s i m with
        | none => rfl
        | some w =>
          by_cases hw : w = 0
          · simp [hw]
          · simp [hw, hm]
      rw [hstep]
      exact ih (fun x hx => hle x (by simp [hx])) a
  exact hgen _ hreal 0

/-- Single-eligible-input environment: one input with `real = 5` on the
weighted metric `cellarea`, no error bit, no goals. -/
def envC8 : MinmaxEnv where
  flowError := fun _ _ => 0
  metricKeys := fun _ _ => ["cellarea"]
  hasGoal := fun _ _ _ => false
  goal := fun _ _ _ => 0
  real := fun _ _ _ => 5
  weightKeys := fun _ _ => ["cellarea"]
  weight := fun _ _ _ => some 1

/-- Variant of `envC8` whose metric values are all negative. -/
def envC8n : MinmaxEnv := { envC8 with real := fun _ _ _ => -2 }

/-- C8: `_minmax` on a task list whose only eligible input is `(s,i)` returns
that input as winner with score `singleEligibleScore` — the sum over non-zero
weighted metrics of `max(real, 0) * weight` (zero normalisation range makes
`scaled` fall back to `max_val = max(real, 0)`); the score is 0 exactly when
no weighted metric has a positive `real`, not unconditionally. -/
theorem C8_single_input (env : MinmaxEnv) (op : MMOp)
    (steplist : List (String × String)) (s i : String)
    (helig : steplist.filter (fun si => !taskFailed env si.1 si.2) = [(s, i)]) :
    minmax env op steplist = (some (singleEligibleScore env s i), some (s, i)) ∧
    ((∀ m ∈ env.weightKeys s i, env.real s i m ≤ 0) →
      singleEligibleScore env s i = 0) :=
  ⟨minmax_single_eligible env op steplist s i helig,
   fun h => singleEligibleScore_nonpos env s i h⟩

theorem C8_witness :
    minmax envC8n MMOp.minimum [("place", "0")]
      = (some (singleEligibleScore envC8n "place" "0"), some ("place", "0")) ∧
    singleEligibleScore envC8n "place" "0" = 0 :=
  ⟨(C8_single_input envC8n MMOp.minimum [("place", "0")] "place" "0"
      (by norm_num +decide [List.filter, taskFailed, envC8n, envC8])).1,
   (C8_single_input envC8n MMOp.minimum [("place", "0")] "place" "0"
      (by norm_num +decide [List.filter, taskFailed, envC8n, envC8])).2
     (by norm_num +decide [envC8n, envC8])⟩

theorem C8_counterexample :
    taskFailed envC8 "place" "0" = false ∧
    minmax envC8 MMOp.minimum [("place", "0")] = (some 5, some ("place", "0")) := by
  constructor
  · norm_num +decide [taskFailed, envC8]
  · norm_num +decide [minmax, taskFailed, minmaxMinVal, minmaxMaxVal, minmaxScore, envC8]

/-- Well-formedness of a config tree: unique keys at every dict level. -/
def cfgWF : Cfg → Bool
  | .leaf _ => true
  | .node cs => cfgWFList cs

theorem cfgWFList_keys_nodup (cs : List (String × Cfg)) (h : cfgWFList cs = true) :
    (cs.map Prod.fst).Nodup := by
  induction cs with
  | nil => simp
  | cons hd rest ih =>
    obtain ⟨k, c⟩ := hd
    obtain ⟨hnotin, hwfrest⟩ := cfgWFList_parts k c rest h
    simp only [List.map_cons, List.nodup_cons]
    exact ⟨hnotin, ih hwfrest⟩

theorem childGet_WF (cs : List (String × Cfg)) (key : String) (c : Cfg)
    (hwf : cfgWFList cs = true) (h : childGet cs key = some c) : cfgWF c = true := by
  induction cs with
  | nil => cases h
  | cons hd rest ih =>
    obtain ⟨k0, c0⟩ := hd
    simp only [childGet] at h
    by_cases hk : k0 = key
    · rw [if_pos hk] at h
      injection h with h
      subst h
      unfold cfgWFList at hwf
      simp only [Bool.and_eq_true] at hwf
      cases c0 with
      | leaf p => rfl
      | node cs2 => exact hwf.1.2
    · rw [if_neg hk] at h
      exact ih (cfgWFList_parts k0 c0 rest hwf).2 h

theorem searchGetkeys_nodup (path : List String) (c : Cfg)
    (r : List String × Cfg × Bool)
    (hwf : cfgWF c = true) (h : searchGetkeys c path = some r) : r.1.Nodup := by
  induction path generalizing c r with
  | nil => cases c <;> cases h
  | cons key rest ih =>
    cases c with
    | leaf p => cases rest <;> cases h
    | node children =>
      cases rest with
      | nil =>
        simp only [searchGetkeys] at h
        cases hcg : childGet children key with
        | none => rw [hcg] at h; cases h
        | some child =>
          rw [hcg] at h
          cases child with
          | leaf p =>
            simp only [Option.some.injEq] at h
            subst h
            have hnd : (["type", "value", "defvalue", "lock"] : List String).Nodup := by
              decide
            exact hnd
          | node cs =>
            simp only [Option.some.injEq] at h
            subst h
            exact cfgWFList_keys_nodup cs (childGet_WF children key _ hwf hcg)
      | cons k2 rest2 =>
        simp only [searchGetkeys] at h
        cases hcg : childGet children key with
        | some child =>
          rw [hcg] at h
          have h2 : Option.map
              (fun r => (r.1, Cfg.node (childSet children key r.2.1), r.2.2))
              (searchGetkeys child (k2 :: rest2)) = some r := h
          cases hrec : searchGetkeys child (k2 :: rest2) with
          | none => rw [hrec] at h2; cases h2
          | some r0 =>
            rw [hrec] at h2
            simp only [Option.map_some', Option.some.injEq] at h2
            subst h2
            exact ih child r0 (childGet_WF children key child hwf hcg) hrec
        | none =>
          rw [hcg] at h
          have h3 : (match childGet children "default" with
            | some d =>
              Option.map (fun r => (r.1, Cfg.node (childSet children key r.2.1), r.2.2))
                (searchGetkeys d (k2 :: rest2))
            | none => none) = some r := h
          cases hcd : childGet children "default" with
          | none => rw [hcd] at h3; cases h3
          | some d =>
            rw [hcd] at h3
            have h4 : Option.map
                (fun r => (r.1, Cfg.node (childSet children key r.2.1), r.2.2))
                (searchGetkeys d (k2 :: rest2)) = some r := h3
            cases hrec : searchGetkeys d (k2 :: rest2) with
            | none => rw [hrec] at h4; cases h4
            | some r0 =>
              rw [hrec] at h4
              simp only [Option.map_some', Option.some.injEq] at h4
              subst h4
              exact ih d r0 (childGet_WF children "default" d hwf hcd) hrec

/-- C4: `getkeys` and `default`.  With a keypath argument, `getkeys` removes
`'default'` from the immediate child keys (dict keys being unique per level,
the single `remove` eliminates it); with no argument, `getkeys()` returns via
`_allkeys` every keypath ending at a parameter — including those that
descend through `'default'` template entries, which are not filtered out. -/
theorem C4_getkeys :
    (∀ (c : Cfg) (path keys : List String) (c2 : Cfg) (err : Bool),
      cfgWF c = true → getkeysAt c path = some (keys, c2, err) →
      "default" ∉ keys) ∧
    (∀ (cs : List (String × Cfg)), cfgWFList cs = true →
      ∀ p, p ∈ getkeysAll (.node cs) ↔ isLeafAt (.node cs) p = true) := by
  constructor
  · intro c path keys c2 err hwf h
    unfold getkeysAt at h
    cases hs : searchGetkeys c path with
    | none => rw [hs] at h; cases h
    | some r =>
      rw [hs] at h
      simp only [Option.map_some', Option.some.injEq, Prod.mk.injEq] at h
      have hnd : r.1.Nodup := searchGetkeys_nodup path c r hwf hs
      obtain ⟨hkeys, _⟩ := h
      by_cases hmem : "default" ∈ r.1
      · rw [if_pos hmem] at hkeys
        rw [← hkeys]
        exact hnd.not_mem_erase
      · rw [if_neg hmem] at hkeys
        rw [← hkeys]
        exact hmem
  · intro cs hwf p
    have h := mem_allkeysList cs [] hwf p
    simp only [List.nil_append] at h
    unfold getkeysAll
    rw [h]
    constructor
    · rintro ⟨q, rfl, hq⟩; exact hq
    · intro hq; exact ⟨p, rfl, hq⟩

def cfgD : Cfg :=
  .node [("stdcell", .node [("default", .node [("rev", .leaf pDesign)])])]

theorem C4_counterexample :
    ["stdcell", "default", "rev"] ∈ getkeysAll cfgD ∧
    "default" ∈ ["stdcell", "default", "rev"] := by
  constructor
  · simp [cfgD, getkeysAll, allkeysList]
  · decide

theorem C4_witness :
    ("default" ∉ ([] : List String)) ∧
    (["stdcell", "default", "rev"] ∈ getkeysAll cfgD ↔
      isLeafAt cfgD ["stdcell", "default", "rev"] = true) :=
  ⟨C4_getkeys.1 cfgD ["stdcell"] [] cfgD false
     (by simp [cfgD, cfgWF, cfgWFList]) rfl,
   C4_getkeys.2 [("stdcell", .node [("default", .node [("rev", .leaf pDesign)])])]
     (by simp [cfgWFList]) ["stdcell", "default", "rev"]⟩

/-- Flowgraph with a two-index step: `m` reads `r`, `t` reads `m`, and `h`
reads `r` on index 0 but `t` on index 1. -/
def inp5 (s i : String) : List (String × String) :=
  if s = "m" then [("r", "0")]
  else if s = "t" then [("m", "0")]
  else if s = "h" then (if i = "0" then [("r", "0")] else [("t", "0")])
  else []

def rank5 (s _i : String) : Nat :=
  if s = "r" then 0 else if s = "m" then 1 else if s = "t" then 2
  else if s = "h" then 3 else 0

theorem rank5_ok : RankedGraph inp5 rank5 := by
  intro s i t j hmem
  unfold inp5 at hmem
  split_ifs at hmem with h1 h2 h3 h4
  · simp only [List.mem_singleton, Prod.mk.injEq] at hmem
    obtain ⟨rfl, rfl⟩ := hmem
    subst h1
    norm_num +decide [rank5]
  · simp only [List.mem_singleton, Prod.mk.injEq] at hmem
    obtain ⟨rfl, rfl⟩ := hmem
    subst h2
    norm_num +decide [rank5]
  · simp only [List.mem_singleton, Prod.mk.injEq] at hmem
    obtain ⟨rfl, rfl⟩ := hmem
    subst h3
    norm_num +decide [rank5]
  · simp only [List.mem_singleton, Prod.mk.injEq] at hmem
    obtain ⟨rfl, rfl⟩ := hmem
    subst h3
    norm_num +decide [rank5]
  · simp at hmem

theorem hfuel5 : ∀ s i, rank5 s i < 10 := by
  intro s i
  unfold rank5
  split_ifs <;> omega

/-- C5: `list_steps` sorts steps by the longest-path depth of their
index-'0' node (`_allpaths(..., str(0))`), stably; for an edge between
index-'0' nodes the tail is placed strictly before the head. -/
theorem C5_list_steps_topo (steps : List String)
    (inp : String → String → List (String × String)) (r : String → String → Nat)
    (hr : RankedGraph inp r) (fuel : Nat) (hfuel : ∀ s i, r s i < fuel)
    (hnodup : steps.Nodup) (t h : String) (ht : t ∈ steps) (hh : h ∈ steps)
    (hedge : (t, "0") ∈ inp h "0") :
    (list_steps steps inp fuel).indexOf t < (list_steps steps inp fuel).indexOf h := by
  unfold list_steps
  exact sorted_position (stepDepth inp fuel) steps hnodup t h ht hh
    (stepDepth_lt_of_edge inp r hr fuel hfuel t h hedge)

theorem C5_counterexample :
    ("t", "0") ∈ inp5 "h" "1" ∧
    (list_steps ["r", "m", "t", "h"] inp5 10).indexOf "h"
      < (list_steps ["r", "m", "t", "h"] inp5 10).indexOf "t" := by
  decide

theorem C5_witness :
    (list_steps ["r", "m", "t", "h"] inp5 10).indexOf "r"
      < (list_steps ["r", "m", "t", "h"] inp5 10).indexOf "m" :=
  C5_list_steps_topo ["r", "m", "t", "h"] inp5 rank5 rank5_ok 10 hfuel5
    (by decide) "r" "m" (by decide) (by decide) (by decide)

/-- Gather environment: `import` runs builtin `nop` over one upstream EDA
node `a` (outputs `a.v`), `m2` runs builtin `minimum` over the same node;
one collected import file `x.v`. -/
def envC6 : GatherEnv where
  inputsOf := fun s i =>
    if (s = "import" ∨ s = "m2") ∧ i = "0" then [("a", "0")] else []
  toolOf := fun s _ =>
    if s = "import" then "nop" else if s = "m2" then "minimum" else "atool"
  edaOutputs := fun tool s i =>
    if tool = "atool" ∧ s = "a" ∧ i = "0" then some ["a.v"] else none
  collectImports := {"x.v"}

def rank6 (s _i : String) : Nat := if s = "import" ∨ s = "m2" then 1 else 0

theorem rank6_ok : RankedGraph envC6.inputsOf rank6 := by
  intro s i t j hmem
  have hmem2 : (t, j) ∈ (if (s = "import" ∨ s = "m2") ∧ i = "0"
      then [("a", "0")] else []) := hmem
  split_ifs at hmem2 with h1
  · simp only [List.mem_singleton, Prod.mk.injEq] at hmem2
    obtain ⟨rfl, rfl⟩ := hmem2
    unfold rank6
    rw [if_neg (by decide)]
    rw [if_pos h1.1]
    omega
  · simp at hmem2

theorem hfuel6 : ∀ s i, rank6 s i < 3 := by
  intro s i
  unfold rank6
  split_ifs <;> omega

/-- C6: `_gather_outputs` combinator semantics.  For a builtin `join`/`nop`
node with non-empty upstream inputs, membership in the gathered set is
membership in some upstream output set; for builtin `minimum`/`maximum`,
membership in every upstream output set — in both cases further augmented,
when the step is named `import`, by the collected import files. -/
theorem C6_gather_semantics (env : GatherEnv) (r : String → String → Nat)
    (hr : RankedGraph env.inputsOf r) (fuel : Nat) (hfuel : ∀ s i, r s i < fuel)
    (s i : String) (hin : env.inputsOf s i ≠ []) (x : String) :
    ((env.toolOf s i = "join" ∨ env.toolOf s i = "nop") →
      (x ∈ gatherOutputs env fuel s i ↔
        (∃ t ∈ env.inputsOf s i, x ∈ gatherOutputs env fuel t.1 t.2)
          ∨ (s = "import" ∧ x ∈ env.collectImports))) ∧
    ((env.toolOf s i = "minimum" ∨ env.toolOf s i = "maximum") →
      (x ∈ gatherOutputs env fuel s i ↔
        (∀ t ∈ env.inputsOf s i, x ∈ gatherOutputs env fuel t.1 t.2)
          ∨ (s = "import" ∧ x ∈ env.collectImports))) :=
  ⟨fun htool => gather_union_mem env r hr fuel hfuel s i htool hin x,
   fun htool => gather_inter_mem env r hr fuel hfuel s i htool hin x⟩

theorem C6_counterexample :
    "x.v" ∈ gatherOutputs envC6 3 "import" "0" ∧
    "x.v" ∉ gatherOutputs envC6 3 "a" "0" := by
  decide

theorem C6_witness :
    ("x.v" ∈ gatherOutputs envC6 3 "import" "0" ↔
      (∃ t ∈ envC6.inputsOf "import" "0", "x.v" ∈ gatherOutputs envC6 3 t.1 t.2)
        ∨ ("import" = "import" ∧ "x.v" ∈ envC6.collectImports)) ∧
    ("a.v" ∈ gatherOutputs envC6 3 "m2" "0" ↔
      (∀ t ∈ envC6.inputsOf "m2" "0", "a.v" ∈ gatherOutputs envC6 3 t.1 t.2)
        ∨ ("m2" = "import" ∧ "a.v" ∈ envC6.collectImports)) :=
  ⟨(C6_gather_semantics envC6 rank6 rank6_ok 3 hfuel6 "import" "0"
      (by decide) "x.v").1 (by decide),
   (C6_gather_semantics envC6 rank6 rank6_ok 3 hfuel6 "m2" "0"
      (by decide) "a.v").2 (by decide)⟩
